import Mathlib

/-!
Shallow embedding of parts of the siso-ng build system (Go), with theorems
checking the natural-language specification against the code.

Sections:
- `Siso.RunCmd`  : `runStrategy` dispatch decision (src/build/run_cmd.go)
- more to follow.
-/

namespace Siso

namespace RunCmd

/-- Execution strategy selected by `Builder.runStrategy`
(the three functions `runReproxy`, `runRemote`, `runLocal`). -/
inductive RunMode where
  | runReproxy
  | runRemote
  | runLocal
  deriving DecidableEq, Repr

/-- The fields of `execute.Cmd` that `runStrategy` inspects:
`Pure`, `Platform` (a list of platform properties; only its length matters),
and `REProxyConfig` (a nil-able pointer, modelled as `Option`). -/
structure Cmd where
  Pure : Bool
  Platform : List (String × String)
  REProxyConfig : Option Unit
  deriving Repr

/-- The fields of `build.Builder` that `runStrategy` inspects:
whether `b.remoteExec != nil` and whether `b.reproxyExec.Enabled()`. -/
structure Builder where
  remoteExecSet : Bool
  reproxyEnabled : Bool
  deriving Repr

/-- `Builder.allowRemote`: remote if available and command has platform property. -/
def allowRemote (b : Builder) (cmd : Cmd) : Bool :=
  b.remoteExecSet && decide (0 < cmd.Platform.length)

/-- `Builder.allowREProxy`: reproxy if available and command has reproxy config set. -/
def allowREProxy (b : Builder) (cmd : Cmd) : Bool :=
  b.reproxyEnabled && cmd.REProxyConfig.isSome

/-- `Builder.runStrategy`: the switch in src/build/run_cmd.go. -/
def runStrategy (b : Builder) (cmd : Cmd) : RunMode :=
  if cmd.Pure && allowREProxy b cmd then .runReproxy
  else if cmd.Pure && allowRemote b cmd then .runRemote
  else .runLocal

end RunCmd

end Siso

namespace Siso.Semaphore

/-- State of a queued request: `stateWaiting`, `stateAcquired`, `stateCanceled`
(the `request.state` atomic in priority_semaphore.go). -/
inductive RState where
  | waiting
  | acquired
  | canceled
  deriving DecidableEq

/-- A `request` in the priority queue: its `weight`, the identity of the waiting
goroutine (standing for the `ready` channel / pointer identity of the request),
and its `state`.  The Go `index` field, which the heap keeps equal to the
request's position in the slice, is materialized as the request's position in
the queue list. -/
structure Request where
  weight : Int
  id : Nat
  state : RState
  deriving DecidableEq

/-- Default value used for (always in-bounds) list reads. -/
def dreq : Request := ⟨0, 0, .waiting⟩

/-- `priorityQueue.Less i j`: higher weight has higher priority
(`pq[i].weight > pq[j].weight`). -/
def pqLess (l : List Request) (i j : Nat) : Bool :=
  (l.getD j dreq).weight < (l.getD i dreq).weight

/-- `priorityQueue.Swap i j` (the parallel assignment reads both old values). -/
def pqSwap (l : List Request) (i j : Nat) : List Request :=
  (l.set i (l.getD j dreq)).set j (l.getD i dreq)

/-- `container/heap.up`, with structural fuel for the loop: the index strictly
decreases, so `j + 1` fuel always suffices.  For `j = 0` the parent index
`(j-1)/2` equals `j` (in Go via signed division, here via truncated `Nat`
subtraction) and the loop stops. -/
def heapUp : Nat → List Request → Nat → List Request
  | 0, l, _ => l
  | fuel + 1, l, j =>
    let i := (j - 1) / 2
    if i = j || !(pqLess l j i) then l
    else heapUp fuel (pqSwap l i j) i

/-- The loop of `container/heap.down`, returning the final index; the Go
function returns `i > i0`.  The index strictly increases below `n`, so `n`
fuel always suffices.  (Go's `j1 < 0` test guards against `int` overflow and
cannot fire in `Nat`.) -/
def heapDownGo : Nat → List Request → Nat → Nat → List Request × Nat
  | 0, l, i, _ => (l, i)
  | fuel + 1, l, i, n =>
    let j1 := 2 * i + 1
    if n ≤ j1 then (l, i)
    else
      let j := if j1 + 1 < n && pqLess l (j1 + 1) j1 then j1 + 1 else j1
      if !(pqLess l j i) then (l, i)
      else heapDownGo fuel (pqSwap l i j) j n

/-- `container/heap.down`: sift down from `i0` within the first `n` entries;
the boolean is Go's `i > i0` result. -/
def heapDown (l : List Request) (i0 n : Nat) : List Request × Bool :=
  let r := heapDownGo n l i0 n
  (r.1, decide (i0 < r.2))

/-- `container/heap.Push`: `pq.Push` appends at the end, then sift up from the
last index. -/
def heapPush (l : List Request) (r : Request) : List Request :=
  heapUp (l.length + 1) (l ++ [r]) l.length

/-- `container/heap.Pop`: swap the root with the last entry, sift down over the
first `len-1` entries, then `pq.Pop` removes and returns the last entry. -/
def heapPop (l : List Request) : Request × List Request :=
  let n := l.length - 1
  let l1 := pqSwap l 0 n
  let l2 := (heapDown l1 0 n).1
  (l2.getLast?.getD dreq, l2.dropLast)

/-- `container/heap.Remove i`: unless `i` is already the last index, swap with
the last entry and re-establish heap order with `down` (and `up` if `down` did
not move); then `pq.Pop` removes and returns the last entry. -/
def heapRemove (l : List Request) (i : Nat) : Request × List Request :=
  let n := l.length - 1
  if n = i then (l.getLast?.getD dreq, l.dropLast)
  else
    let l1 := pqSwap l i n
    let d := heapDown l1 i n
    let l2 := if d.2 then d.1 else heapUp (i + 1) d.1 i
    (l2.getLast?.getD dreq, l2.dropLast)

/-- The state of a `Prioritized` semaphore, together with the observable grant
log used by the theorems: `capacity`, the `used` counter, the priority queue,
the ids granted a slot by `privateRelease` (sends on `req.ready`, oldest
first), the ids granted immediately by `WaitAcquire`'s fast path, and the ids
whose `WaitAcquire` returned the cancellation cause. -/
structure Sem where
  capacity : Nat
  used : Int
  pq : List Request
  grants : List Request
  fastGrants : List Nat
  canceledIds : List Nat
  deriving DecidableEq

/-- Initial semaphore from `NewPrioritized`: no slot used, empty queue. -/
def Sem.init (cap : Nat) : Sem := ⟨cap, 0, [], [], [], []⟩

/-- `WaitAcquire`: while `used < capacity` a slot is granted immediately
(`used++`); otherwise the request is pushed on the priority queue in state
`waiting`. -/
def waitAcquire (s : Sem) (weight : Int) (id : Nat) : Sem :=
  if s.used < (s.capacity : Int) then
    { s with used := s.used + 1, fastGrants := s.fastGrants ++ [id] }
  else
    { s with pq := heapPush s.pq ⟨weight, id, .waiting⟩ }

/-- The `ctx.Done()` branch of `WaitAcquire`: attempt the atomic CAS
`Waiting → Canceled`.  It succeeds exactly when the request is still queued in
state `waiting`; the waiter then returns the cancellation cause.  If the CAS
fails the request was already granted (it lost the race) and the waiter takes
the slot normally, which the grant log already records. -/
def cancelMark (s : Sem) (id : Nat) : Sem :=
  if s.pq.any fun r => r.id == id && r.state == RState.waiting then
    { s with
      pq := s.pq.map fun r =>
        if r.id == id && r.state == RState.waiting then { r with state := .canceled } else r,
      canceledIds := s.canceledIds ++ [id] }
  else s

/-- The removal step after a successful cancellation CAS: `heap.Remove` at the
request's index, guarded by `req.index != -1`, i.e. by the request still being
in the queue. -/
def cancelRemove (s : Sem) (id : Nat) : Sem :=
  match s.pq.findIdx? (fun r => r.id == id) with
  | none => s
  | some i => { s with pq := (heapRemove s.pq i).2 }

/-- The loop of `privateRelease`: pop until a request whose CAS
`Waiting → Acquired` succeeds and signal it (`req.ready <- tid`); canceled
requests are skipped.  If the queue drains without a grant, decrement `used`.
Fuel: the queue length bounds the number of pops. -/
def releaseGo : Nat → Sem → Sem
  | 0, s => { s with used := s.used - 1 }
  | fuel + 1, s =>
    if s.pq.isEmpty then { s with used := s.used - 1 }
    else
      let p := heapPop s.pq
      if p.1.state == RState.waiting then
        { s with pq := p.2, grants := s.grants ++ [p.1] }
      else
        releaseGo fuel { s with pq := p.2 }

/-- `privateRelease` (the body of the `done` callback built by
`onServeCompleteFunc`). -/
def release (s : Sem) : Sem := releaseGo s.pq.length s

/-- One observable operation on the semaphore.  `cancel` is the cancellation
path run without interleaving (CAS, then removal); `cancelMarkOp` and
`cancelRemoveOp` are its two atomic halves, allowing other operations to
interleave between them (which is when `privateRelease`'s skip loop sees a
canceled request still in the queue). -/
inductive SemOp where
  | acquire (weight : Int) (id : Nat)
  | cancel (id : Nat)
  | cancelMarkOp (id : Nat)
  | cancelRemoveOp (id : Nat)
  | releaseOp
  deriving DecidableEq

/-- Apply one operation. -/
def semStep (s : Sem) : SemOp → Sem
  | .acquire w id => waitAcquire s w id
  | .cancel id => cancelRemove (cancelMark s id) id
  | .cancelMarkOp id => cancelMark s id
  | .cancelRemoveOp id => cancelRemove s id
  | .releaseOp => release s

/-- Apply a sequence of operations. -/
def semRun (s : Sem) (ops : List SemOp) : Sem := ops.foldl semStep s

/-- Weight stored at index `i` of the queue. -/
def wt (l : List Request) (i : Nat) : Int := (l.getD i dreq).weight

/-- Parent index in the binary heap; `(j-1)/2`, with `parentIdx 0 = 0`. -/
def parentIdx (j : Nat) : Nat := (j - 1) / 2

/-- Max-heap order (with respect to `priorityQueue.Less`) on the first `n`
entries: every non-root entry's weight is at most its parent's. -/
def IsHeapUpTo (l : List Request) (n : Nat) : Prop :=
  ∀ j, j < n → 0 < j → wt l j ≤ wt l (parentIdx j)

instance (l : List Request) (n : Nat) : Decidable (IsHeapUpTo l n) :=
  Nat.decidableBallLT n _

/-- Max-heap order on the whole queue. -/
def IsHeap (l : List Request) : Prop := IsHeapUpTo l l.length

instance (l : List Request) : Decidable (IsHeap l) :=
  inferInstanceAs (Decidable (IsHeapUpTo l l.length))

/-- Invariant carried through `down`'s loop: heap order holds on the first `n`
entries except possibly on edges out of `i` (and, before any swap happened,
on the edge into `i`), and the children of `i` are bounded by `i`'s parent. -/
def DownInv (l : List Request) (n i : Nat) (moved : Bool) : Prop :=
  (∀ c, 0 < c → c < n → parentIdx c ≠ i → (moved = false → c ≠ i) →
    wt l c ≤ wt l (parentIdx c)) ∧
  (0 < i → ∀ c, c < n → parentIdx c = i → wt l c ≤ wt l (parentIdx i))

/-- Invariant carried through `up`'s loop: heap order holds on the first `n`
entries except possibly on the edge into `j`, and the children of `j` are
bounded by `j`'s parent. -/
def UpInv (l : List Request) (n j : Nat) : Prop :=
  (∀ c, 0 < c → c < n → c ≠ j → wt l c ≤ wt l (parentIdx c)) ∧
  (∀ c, c < n → parentIdx c = j → wt l c ≤ wt l (parentIdx j))

/-- The stable descending sort by weight that the spec describes
(`sort_desc(weights, stable_by_enqueue)`): insertion sort with the
"weight at least" relation, which keeps equal-weight entries in their
original order. -/
def sortDescByWeight (l : List Request) : List Request :=
  l.insertionSort (fun a b => b.weight ≤ a.weight)

/-- A concrete semaphore state used to instantiate the cancellation theorems:
capacity 1 with the slot held (`used = 1`) and three queued waiters of weights
20, 10 and 1 (ids 2, 1, 3), as in `TestPrioritized_SkipCanceledRequest`. -/
def skipTestSem : Sem :=
  ⟨1, 1, [⟨20, 2, .waiting⟩, ⟨10, 1, .waiting⟩, ⟨1, 3, .waiting⟩], [], [100], []⟩

end Siso.Semaphore

namespace Siso.Retry

/-- gRPC status codes, as compared by `retriableError` in
src/reapi/retry/retry.go. -/
inductive Code where
  | ok
  | canceled
  | unknown
  | invalidArgument
  | deadlineExceeded
  | notFound
  | alreadyExists
  | permissionDenied
  | resourceExhausted
  | failedPrecondition
  | aborted
  | outOfRange
  | unimplemented
  | internal
  | unavailable
  | dataLoss
  | unauthenticated
  deriving DecidableEq

/-- An error as seen by `retriableError`: the status code recovered by
`status.FromError` (or `status.FromContextError` when the error is not a
gRPC status), and the `ok` flag telling whether the error was a genuine gRPC
status error. -/
structure GError where
  code : Code
  isStatus : Bool
  deriving DecidableEq

/-- The mutable fields of `ExponentialBackoff`.  `started` only matters
through `IsZero`, so it is a flag; `delay` is a `time.Duration` in
nanoseconds. -/
structure ExponentialBackoff where
  startedSet : Bool
  retries : Nat
  delay : Int
  authRetry : Bool
  deriving DecidableEq

/-- The zero value of `ExponentialBackoff` (as used by `retry.Do`). -/
def ExponentialBackoff.initial : ExponentialBackoff := ⟨false, 0, 0, false⟩

/-- `maxRetries` in `Next`. -/
def maxRetries : Nat := 10

/-- `multiplier` in `Next`. -/
def multiplier : ℚ := 2

/-- `baseDelay = 200 * time.Millisecond` in nanoseconds. -/
def baseDelay : Int := 200000000

/-- `maxDelay = float64(10 * time.Second)`. -/
def maxDelay : ℚ := 10000000000

/-- `backoffRange = 0.4`. -/
def backoffRange : ℚ := 2/5

/-- `ExponentialBackoff.retriableError`.  It also mutates `authRetry` on the
auth codes, so it returns the updated state. -/
def retriableError (b : ExponentialBackoff) (e : GError) : Bool × ExponentialBackoff :=
  match e.code with
  | .resourceExhausted | .internal | .unavailable | .aborted => (true, b)
  | .unknown => (e.isStatus, b)
  | .unauthenticated | .permissionDenied => (!b.authRetry, { b with authRetry := true })
  | _ => (false, b)

/-- Which of `Next`'s return paths was taken: `err == nil`; a non-retriable
error returned as-is; the too-many-retries error; or a positive retry delay
with the error. -/
inductive NextOutcome where
  | success
  | noRetry
  | exhausted
  | retry
  deriving DecidableEq

/-- The state updates `Next` performs before classifying the error: record
the start time (only its zero-ness is observable) and set `delay` to
`baseDelay` if it is still zero. -/
def nextStart (b : ExponentialBackoff) : ExponentialBackoff :=
  if b.delay = 0 then { b with startedSet := true, delay := baseDelay }
  else { b with startedSet := true }

/-- The delay computation at the end of `Next`:
`backoff := float64(b.delay) * multiplier`, capped at `maxDelay`, reduced by
`backoff * backoffRange * rand.Float64()`, converted to `time.Duration`
(truncation toward zero, i.e. floor of a non-negative value), and clamped
below at `baseDelay`. -/
def nextComputedDelay (delay : Int) (u : ℚ) : Int :=
  let bk1 : ℚ := (delay : ℚ) * multiplier
  let bk2 : ℚ := if maxDelay < bk1 then maxDelay else bk1
  let bk3 : ℚ := bk2 - bk2 * backoffRange * u
  let d1 : Int := ⌊bk3⌋
  if d1 < baseDelay then baseDelay else d1

/-- `ExponentialBackoff.Next`.  The float64 arithmetic is modelled exactly
over ℚ: every quantity involved is far below 2^53, so the int-to-float
conversions, the doubling and the cap are exact in float64 as well; only the
jitter product may differ by an ulp, which none of the stated bounds depend
on.  `rand.Float64()` is passed in as `u`. -/
def nextDelay (b : ExponentialBackoff) (e : Option GError) (u : ℚ) :
    Int × NextOutcome × ExponentialBackoff :=
  match e with
  | none => (0, .success, b)
  | some err =>
    let r := retriableError (nextStart b) err
    if r.1 = false then (0, .noRetry, r.2)
    else if maxRetries ≤ r.2.retries then (0, .exhausted, r.2)
    else
      let d := nextComputedDelay r.2.delay u
      (d, .retry, { r.2 with retries := r.2.retries + 1, delay := d })

/-- `retry.Do`'s loop: call `f` (its error stream given by `errs`), feed the
error to `Next` with the next jitter sample, return when the delay is zero.
Returns the number of calls to `f` and the outcome of the final `Next`.
`fuel` bounds the loop; cancellation via `ctx` is not modelled. -/
def doSim (errs : Nat → Option GError) (us : Nat → ℚ) :
    Nat → ExponentialBackoff → Nat → Nat × NextOutcome
  | 0, _, n => (n, .retry)
  | fuel + 1, b, n =>
    let r := nextDelay b (errs n) (us n)
    if r.1 = 0 then (n + 1, r.2.1)
    else doSim errs us fuel r.2.2 (n + 1)

end Siso.Retry

namespace Siso.BuildCache

/-- An error observed by `Cache.GetActionResult`: either a gRPC `NotFound`
status (as built with `status.Error(codes.NotFound, msg)`) or any other
failure. -/
inductive CErr where
  | notFound (msg : String)
  | failure (msg : String)
  deriving DecidableEq

/-- The fields of an `rpb.ActionResult` that `setActionResultStdout` /
`setActionResultStderr` inspect: the lengths of the inline `StdoutRaw` /
`StderrRaw` bytes and the sizes of the stdout / stderr digests. -/
structure ActionResultData where
  stdoutRawLen : Nat
  stdoutDigestSize : Nat
  stderrRawLen : Nat
  stderrDigestSize : Nat
  deriving DecidableEq

/-- The environment of one `GetActionResult` call: the cache configuration
and the outcomes of each sub-operation (`cmd.Digest` under the semaphore,
`store.GetActionResult`, the two `store.GetContent` fetches, and
`cmd.RecordOutputs`). -/
structure CacheEnv where
  configured : Bool
  enableRead : Bool
  digestResult : Except CErr Unit
  actionResult : Except CErr ActionResultData
  getContentStdout : Except CErr Unit
  getContentStderr : Except CErr Unit
  recordOutputs : Except CErr Unit

/-- `Cache.setActionResultStdout`: use inline bytes if present; otherwise a
zero-sized digest means no stdout; otherwise fetch the content by digest. -/
def setActionResultStdout (env : CacheEnv) (result : ActionResultData) :
    Except CErr Unit :=
  if 0 < result.stdoutRawLen then .ok ()
  else if result.stdoutDigestSize = 0 then .ok ()
  else env.getContentStdout

/-- `Cache.setActionResultStderr`. -/
def setActionResultStderr (env : CacheEnv) (result : ActionResultData) :
    Except CErr Unit :=
  if 0 < result.stderrRawLen then .ok ()
  else if result.stderrDigestSize = 0 then .ok ()
  else env.getContentStderr

/-- `Cache.GetActionResult` (src/build/cache.go): guard clauses produce
`NotFound`; every later failure (digest computation, the ActionCache lookup,
the stdout/stderr content fetches, recording outputs) is returned to the
caller unchanged. -/
def GetActionResult (env : CacheEnv) : Except CErr Unit :=
  if env.configured = false then .error (.notFound "cache is not configured")
  else if env.enableRead = false then .error (.notFound "cache disable raed")
  else
    match env.digestResult with
    | .error e => .error e
    | .ok _ =>
      match env.actionResult with
      | .error e => .error e
      | .ok result =>
        match setActionResultStdout env result with
        | .error e => .error e
        | .ok _ =>
          match setActionResultStderr env result with
          | .error e => .error e
          | .ok _ => env.recordOutputs

/-- Whether a `GetActionResult` outcome is a `NotFound` error. -/
def isNotFoundResult : Except CErr Unit → Bool
  | .error (.notFound _) => true
  | _ => false

/-- Truncate to a 32-bit word. -/
def w32 (n : Nat) : Nat := n % 4294967296

/-- 32-bit right rotation. -/
def rotr32 (n x : Nat) : Nat := w32 ((x >>> n) ||| (x <<< (32 - n)))

/-- The SHA-256 round constants (FIPS 180-4, in decimal). -/
def sha256K : List Nat :=
  [1116352408, 1899447441, 3049323471, 3921009573, 961987163,
   1508970993, 2453635748, 2870763221, 3624381080, 310598401,
   607225278, 1426881987, 1925078388, 2162078206, 2614888103,
   3248222580, 3835390401, 4022224774, 264347078, 604807628,
   770255983, 1249150122, 1555081692, 1996064986, 2554220882,
   2821834349, 2952996808, 3210313671, 3336571891, 3584528711,
   113926993, 338241895, 666307205, 773529912, 1294757372,
   1396182291, 1695183700, 1986661051, 2177026350, 2456956037,
   2730485921, 2820302411, 3259730800, 3345764771, 3516065817,
   3600352804, 4094571909, 275423344, 430227734, 506948616,
   659060556, 883997877, 958139571, 1322822218, 1537002063,
   1747873779, 1955562222, 2024104815, 2227730452, 2361852424,
   2428436474, 2756734187, 3204031479, 3329325298]

/-- The SHA-256 initial hash state (FIPS 180-4, in decimal). -/
def sha256H0 : List Nat :=
  [1779033703, 3144134277, 1013904242, 2773480762,
   1359893119, 2600822924, 528734635, 1541459225]

/-- Big-endian byte decomposition of `n` into `k` bytes. -/
def beBytes : Nat → Nat → List Nat
  | 0, _ => []
  | k + 1, n => beBytes k (n / 256) ++ [n % 256]

/-- SHA-256 message padding: a 0x80 byte, zeros to 56 mod 64, then the
bit length as 8 big-endian bytes. -/
def sha256Pad (msg : List Nat) : List Nat :=
  msg ++ [128] ++ List.replicate ((119 - msg.length % 64) % 64) 0
    ++ beBytes 8 (msg.length * 8)

/-- Group bytes into big-endian 32-bit words. -/
def bytesToWords : List Nat → List Nat
  | a :: b :: c :: d :: rest =>
      (a * 16777216 + b * 65536 + c * 256 + d) :: bytesToWords rest
  | _ => []

/-- Split into 64-byte blocks; `fuel` bounds the recursion. -/
def chunks64 : Nat → List Nat → List (List Nat)
  | 0, _ => []
  | _, [] => []
  | fuel + 1, l => l.take 64 :: chunks64 fuel (l.drop 64)

/-- Extend 16 message words to the 64-word SHA-256 schedule. -/
def extendW : Nat → List Nat → List Nat
  | 0, w => w
  | k + 1, w =>
    let i := w.length
    let x15 := w.getD (i - 15) 0
    let x2 := w.getD (i - 2) 0
    let s0 := rotr32 7 x15 ^^^ rotr32 18 x15 ^^^ (x15 >>> 3)
    let s1 := rotr32 17 x2 ^^^ rotr32 19 x2 ^^^ (x2 >>> 10)
    extendW k (w ++ [w32 (w.getD (i - 16) 0 + s0 + w.getD (i - 7) 0 + s1)])

/-- The 64 SHA-256 compression rounds over the paired round constants and
schedule words. -/
def sha256Rounds :
    List (Nat × Nat) → Nat × Nat × Nat × Nat × Nat × Nat × Nat × Nat →
    Nat × Nat × Nat × Nat × Nat × Nat × Nat × Nat
  | [], st => st
  | (k, wi) :: rest, (a, b, c, d, e, f, g, h) =>
    let S1 := rotr32 6 e ^^^ rotr32 11 e ^^^ rotr32 25 e
    let ch := (e &&& f) ^^^ ((e ^^^ 4294967295) &&& g)
    let temp1 := w32 (h + S1 + ch + k + wi)
    let S0 := rotr32 2 a ^^^ rotr32 13 a ^^^ rotr32 22 a
    let maj := (a &&& b) ^^^ (a &&& c) ^^^ (b &&& c)
    let temp2 := w32 (S0 + maj)
    sha256Rounds rest (w32 (temp1 + temp2), a, b, c, w32 (d + temp1), e, f, g)

/-- One SHA-256 block compression. -/
def sha256Compress (hs : List Nat) (block : List Nat) : List Nat :=
  match hs with
  | [h0, h1, h2, h3, h4, h5, h6, h7] =>
    let w := extendW 48 (bytesToWords block)
    let st := sha256Rounds (sha256K.zip w) (h0, h1, h2, h3, h4, h5, h6, h7)
    match st with
    | (a, b, c, d, e, f, g, h) =>
      [w32 (h0 + a), w32 (h1 + b), w32 (h2 + c), w32 (h3 + d),
       w32 (h4 + e), w32 (h5 + f), w32 (h6 + g), w32 (h7 + h)]
  | _ => hs

/-- SHA-256 of a byte string (bytes as naturals below 256), as 32 bytes. -/
def sha256 (msg : List Nat) : List Nat :=
  let padded := sha256Pad msg
  ((chunks64 (padded.length + 1) padded).foldl sha256Compress sha256H0).map
    (beBytes 4) |>.flatten

/-- `unitSeparator` ("\x1f") as a byte string. Go strings are byte strings
and `io.WriteString` writes their raw bytes, so paths are modelled as lists
of bytes. -/
def unitSeparator : List Nat := [31]

/-- `calculateEdgeHash`: stream the inputs, each followed by a unit
separator, one extra separator, then the outputs each followed by a
separator, into a fresh SHA-256 and return its sum. The streaming writes
are modelled by accumulating the written bytes. -/
def calculateEdgeHash (inputs outputs : List (List Nat)) : List Nat :=
  let h1 := inputs.foldl (fun h fname => h ++ fname ++ unitSeparator) []
  let h2 := h1 ++ unitSeparator
  let h3 := outputs.foldl (fun h fname => h ++ fname ++ unitSeparator) h2
  sha256 h3

/-- Paths each followed by a unit separator, concatenated. -/
def joinSep (ps : List (List Nat)) : List Nat :=
  (ps.map (fun f => f ++ [31])).flatten

/-- The exact byte string `calculateEdgeHash` feeds to SHA-256. -/
def edgeMessage (inputs outputs : List (List Nat)) : List Nat :=
  joinSep inputs ++ [31] ++ joinSep outputs

end Siso.BuildCache

namespace Siso.Scandeps

/-- `PathTable` (src/scandeps/path_table.go): `pathToIdx` is the Go map
(modelled as an association list with unique keys, looked up by key) and
`idxToPath` the slice. -/
structure PathTable where
  pathToIdx : List (String × Nat)
  idxToPath : List String
  deriving DecidableEq

/-- Lookup in the `pathToIdx` map. -/
def mapLookup (m : List (String × Nat)) (p : String) : Option Nat :=
  (m.find? (fun kv => kv.1 == p)).map (fun kv => kv.2)

/-- `NewPathTable`. -/
def NewPathTable : PathTable := ⟨[], []⟩

/-- `PathTable.GetIndex`: return the existing index, or assign
`len(idxToPath)` as the new index, record it in the map and append the path
to the slice. -/
def GetIndex (pt : PathTable) (path : String) : Nat × PathTable :=
  match mapLookup pt.pathToIdx path with
  | some idx => (idx, pt)
  | none =>
    let idx := pt.idxToPath.length
    (idx, ⟨(path, idx) :: pt.pathToIdx, pt.idxToPath ++ [path]⟩)

/-- `PathTable.GetPath`: an error for a negative or out-of-range index,
otherwise the stored path. -/
def GetPath (pt : PathTable) (idx : Int) : Except String String :=
  if idx < 0 ∨ (pt.idxToPath.length : Int) ≤ idx then
    .error "invalid path index"
  else
    .ok (pt.idxToPath.getD idx.toNat "")

/-- Intern a sequence of paths through `GetIndex`. -/
def internList (ps : List String) : PathTable :=
  ps.foldl (fun pt p => (GetIndex pt p).2) NewPathTable

/-- The table's coherence invariant: the map and the slice represent the same
finite bijection between interned paths and indices. -/
def TableInv (pt : PathTable) : Prop :=
  ∀ p i, mapLookup pt.pathToIdx p = some i ↔ pt.idxToPath[i]? = some p

end Siso.Scandeps

namespace Siso.RunCmd

/-- C1: the claim says that for a pure command with a remote executor available and
non-empty platform properties, `runStrategy` selects `run_remote` even when reproxy is
also available and a reproxy config is set.  The code checks the reproxy case first, so
at such an input it returns `runReproxy`, refuting the claim. -/
theorem C1_counterexample :
    (Cmd.Pure ⟨true, [("container-image", "img")], some ()⟩ = true ∧
      allowRemote ⟨true, true⟩ ⟨true, [("container-image", "img")], some ()⟩ = true ∧
      allowREProxy ⟨true, true⟩ ⟨true, [("container-image", "img")], some ()⟩ = true) ∧
    runStrategy ⟨true, true⟩ ⟨true, [("container-image", "img")], some ()⟩ ≠ .runRemote := by
  decide

/-- C1 (amended): `runStrategy` gives reproxy priority over remote.  It selects
`run_reproxy` iff the command is pure, reproxy is available and the command has a
reproxy config; it selects `run_remote` iff the command is pure, a remote executor is
available with non-empty platform properties, and the reproxy criteria fail; otherwise
it falls back to `run_local`. -/
theorem C1_runStrategy_characterization (b : Builder) (cmd : Cmd) :
    (runStrategy b cmd = .runReproxy ↔
      (cmd.Pure = true ∧ allowREProxy b cmd = true)) ∧
    (runStrategy b cmd = .runRemote ↔
      (cmd.Pure = true ∧ allowRemote b cmd = true ∧ allowREProxy b cmd = false)) ∧
    (runStrategy b cmd = .runLocal ↔
      (cmd.Pure = false ∨ (allowRemote b cmd = false ∧ allowREProxy b cmd = false))) := by
  unfold runStrategy
  cases hp : cmd.Pure <;> cases hrp : allowREProxy b cmd <;>
    cases hr : allowRemote b cmd <;> simp

end Siso.RunCmd

namespace Siso.HashFS

/-- Errors from the underlying `hashFS` read: a `SymlinkError` carrying the
symlink's path and target, or any other error. -/
inductive FSErr where
  | symlinkError (path target : String)
  | other (msg : String)
  deriving DecidableEq

/-- Errors `FileSystem.ReadFile`/`Stat` return: `syscall.ELOOP` wrapped in an
`fs.PathError`, or the underlying error wrapped in an `fs.PathError`. -/
inductive PathErr where
  | eloop
  | pathError (msg : String)
  deriving DecidableEq

/-- The part of hashfs `FileInfo` the resolution loop reads: `Target()`
(empty for a non-symlink) and `Path()`. -/
structure StatInfo where
  target : String
  path : String
  deriving DecidableEq

/-- Environment of the `FileSystem` resolution loops: the underlying
`hashFS.ReadFile` and `hashFS.Stat` (the per-iteration `root` computed from
`filepath.IsAbs(name)` and `fsys.dir` is absorbed into these oracles, which
receive the full `name`), and `resolveSymlinkPath(fsys.dir, path, target)`
with `fsys.dir` fixed. -/
structure FSModel where
  readFile : String → Except FSErr (List Nat)
  stat : String → Except String StatInfo
  resolve : String → String → String

/-- Modelled from the spec: `MAX_SYMLINKS = 40`. The constant `maxSymlinks`
is referenced by src/hashfs/filesystem.go but declared in a hashfs file not
included under src/. -/
def maxSymlinks : Nat := 40

/-- One symlink-resolution step of the `ReadFile` loop: on a `SymlinkError`
the next name is `resolveSymlinkPath(dir, serr.Path, serr.Target)`, otherwise
the loop does not continue (the name is unchanged). -/
def chainStep (fsys : FSModel) (name : String) : String :=
  match fsys.readFile name with
  | .error (.symlinkError p t) => fsys.resolve p t
  | _ => name

/-- The name examined by iteration `k` of the `ReadFile` loop. -/
def chainName (fsys : FSModel) (name : String) : Nat → String
  | 0 => name
  | k + 1 => chainStep fsys (chainName fsys name k)

/-- Whether the `ReadFile` loop sees a symlink at `name`. -/
def isSymlink (fsys : FSModel) (name : String) : Bool :=
  match fsys.readFile name with
  | .error (.symlinkError _ _) => true
  | _ => false

/-- The body of `FileSystem.ReadFile`: `for range maxSymlinks` tries the
read, resolves a `SymlinkError` and continues, returns any other error
wrapped; falling out of the loop returns `ELOOP`. -/
def ReadFileGo (fsys : FSModel) : Nat → String → Except PathErr (List Nat)
  | 0, _ => .error .eloop
  | fuel + 1, name =>
    match fsys.readFile name with
    | .ok buf => .ok buf
    | .error (.symlinkError p t) => ReadFileGo fsys fuel (fsys.resolve p t)
    | .error (.other e) => .error (.pathError e)

/-- `FileSystem.ReadFile`. -/
def ReadFile (fsys : FSModel) (name : String) : Except PathErr (List Nat) :=
  ReadFileGo fsys maxSymlinks name

/-- One symlink-resolution step of the `Stat` loop. -/
def statStep (fsys : FSModel) (name : String) : String :=
  match fsys.stat name with
  | .ok fi => if fi.target = "" then name else fsys.resolve fi.path fi.target
  | .error _ => name

/-- The name examined by iteration `k` of the `Stat` loop. -/
def statChainName (fsys : FSModel) (name : String) : Nat → String
  | 0 => name
  | k + 1 => statStep fsys (statChainName fsys name k)

/-- Whether the `Stat` loop sees a symlink at `name`. -/
def statIsSymlink (fsys : FSModel) (name : String) : Bool :=
  match fsys.stat name with
  | .ok fi => fi.target != ""
  | .error _ => false

/-- The `FileInfo` the `Stat` loop obtains at iteration `k` (meaningful when
the stat succeeds there). -/
def statFiAt (fsys : FSModel) (name : String) (k : Nat) : StatInfo :=
  match fsys.stat (statChainName fsys name k) with
  | .ok fi => fi
  | .error _ => ⟨"", ""⟩

/-- The body of `FileSystem.Stat`: `for range maxSymlinks` stats the name,
returns any stat error wrapped, returns the info (with the visited symlink
infos `fis`) when the target is empty, otherwise appends the info to `fis`
and continues at the resolved name; falling out returns `ELOOP`. -/
def StatGo (fsys : FSModel) :
    Nat → String → List StatInfo → Except PathErr (StatInfo × List StatInfo)
  | 0, _, _ => .error .eloop
  | fuel + 1, name, fis =>
    match fsys.stat name with
    | .error e => .error (.pathError e)
    | .ok fi =>
      if fi.target = "" then .ok (fi, fis)
      else StatGo fsys fuel (fsys.resolve fi.path fi.target) (fis ++ [fi])

/-- `FileSystem.Stat`. -/
def Stat (fsys : FSModel) (name : String) :
    Except PathErr (StatInfo × List StatInfo) :=
  StatGo fsys maxSymlinks name []

/-- A concrete filesystem: `a → b → c` (a two-symlink chain to a regular
file) and the self-loop `x → x`. -/
def c7fs : FSModel where
  readFile := fun n =>
    if n = "a" then .error (.symlinkError "a" "b")
    else if n = "b" then .error (.symlinkError "b" "c")
    else if n = "c" then .ok [1, 2]
    else if n = "x" then .error (.symlinkError "x" "x")
    else .error (.other "file not found")
  stat := fun n =>
    if n = "a" then .ok ⟨"b", "a"⟩
    else if n = "b" then .ok ⟨"c", "b"⟩
    else if n = "c" then .ok ⟨"", "c"⟩
    else if n = "x" then .ok ⟨"x", "x"⟩
    else .error "file not found"
  resolve := fun _ t => t
end Siso.HashFS


namespace Siso.Semaphore

theorem getD_set_self (l : List Request) (i : Nat) (b : Request) (hi : i < l.length) :
    (l.set i b).getD i dreq = b := by
  simp [List.getD_eq_getElem?_getD, List.getElem?_set_self, hi]

theorem getD_set_ne (l : List Request) (i k : Nat) (b : Request) (hk : k ≠ i) :
    (l.set i b).getD k dreq = l.getD k dreq := by
  simp [List.getD_eq_getElem?_getD, List.getElem?_set_ne (Ne.symm hk)]

theorem count_set_add (l : List Request) (i : Nat) (b : Request) (hi : i < l.length)
    (a : Request) :
    (l.set i b).count a + (if l.getD i dreq = a then 1 else 0)
      = l.count a + (if b = a then 1 else 0) := by
  induction l generalizing i with
  | nil => simp at hi
  | cons x t ih =>
    cases i with
    | zero =>
      simp only [List.set_cons_zero, List.count_cons, List.getD_cons_zero]
      by_cases hxa : x = a <;> by_cases hba : b = a <;>
        simp [hxa, hba, beq_iff_eq] <;> try omega
    | succ n =>
      have hn : n < t.length := by simpa using hi
      have := ih n hn
      simp only [List.getD_eq_getElem?_getD] at this
      simp only [List.set_cons_succ, List.count_cons, List.getD_cons_succ,
        List.getD_eq_getElem?_getD]
      by_cases hxa : x = a <;> simp [hxa, beq_iff_eq] <;> omega

theorem pqSwap_length (l : List Request) (i j : Nat) :
    (pqSwap l i j).length = l.length := by
  simp [pqSwap]

theorem getD_pqSwap_fst (l : List Request) (i j : Nat) (hi : i < l.length)
    (hj : j < l.length) : (pqSwap l i j).getD i dreq = l.getD j dreq := by
  unfold pqSwap
  by_cases hij : i = j
  · subst hij
    rw [getD_set_self _ _ _ (by simpa using hi)]
  · rw [getD_set_ne _ _ _ _ hij, getD_set_self _ _ _ hi]

theorem getD_pqSwap_snd (l : List Request) (i j : Nat) (hj : j < l.length) :
    (pqSwap l i j).getD j dreq = l.getD i dreq := by
  unfold pqSwap
  rw [getD_set_self _ _ _ (by simpa using hj)]

theorem getD_pqSwap_other (l : List Request) (i j k : Nat) (hki : k ≠ i) (hkj : k ≠ j) :
    (pqSwap l i j).getD k dreq = l.getD k dreq := by
  unfold pqSwap
  rw [getD_set_ne _ _ _ _ hkj, getD_set_ne _ _ _ _ hki]

theorem getD_set_eq_of_getD (l : List Request) (i j : Nat) (hj : j < l.length) :
    (l.set i (l.getD j dreq)).getD j dreq = l.getD j dreq := by
  by_cases hij : j = i
  · subst hij; exact getD_set_self _ _ _ hj
  · exact getD_set_ne _ _ _ _ hij

theorem parentIdx_lt (j : Nat) (hj : 0 < j) : parentIdx j < j := by
  unfold parentIdx; omega

theorem parentIdx_child1 (i : Nat) : parentIdx (2 * i + 1) = i := by
  unfold parentIdx; omega

theorem parentIdx_child2 (i : Nat) : parentIdx (2 * i + 2) = i := by
  unfold parentIdx; omega

theorem child_of_parentIdx (c i : Nat) (hc : 0 < c) (h : parentIdx c = i) :
    c = 2 * i + 1 ∨ c = 2 * i + 2 := by
  unfold parentIdx at h; omega

theorem pqLess_iff (l : List Request) (i j : Nat) :
    pqLess l i j = true ↔ wt l j < wt l i := by
  simp [pqLess, wt]

theorem pqSwap_perm (l : List Request) (i j : Nat) (hi : i < l.length)
    (hj : j < l.length) : (pqSwap l i j).Perm l := by
  rw [List.perm_iff_count]
  intro a
  have hjlen : j < (l.set i (l.getD j dreq)).length := by simpa using hj
  have h1 := count_set_add (l.set i (l.getD j dreq)) j (l.getD i dreq) hjlen a
  have h2 := count_set_add l i (l.getD j dreq) hi a
  rw [getD_set_eq_of_getD l i j hj] at h1
  unfold pqSwap
  by_cases hia : l.getD i dreq = a <;> by_cases hja : l.getD j dreq = a <;>
    simp [hia, hja] at h1 h2 ⊢ <;> omega

theorem heapDownGo_facts (fuel : Nat) (l : List Request) (i n : Nat) (hn : n ≤ l.length) :
    (heapDownGo fuel l i n).1.length = l.length ∧
    (heapDownGo fuel l i n).1.Perm l ∧
    (∀ k, n ≤ k → (heapDownGo fuel l i n).1.getD k dreq = l.getD k dreq) ∧
    i ≤ (heapDownGo fuel l i n).2 ∧
    ((heapDownGo fuel l i n).2 = i → (heapDownGo fuel l i n).1 = l) := by
  induction fuel generalizing l i with
  | zero => simp [heapDownGo]
  | succ fuel ih =>
    by_cases h1 : n ≤ 2 * i + 1
    · simp [heapDownGo, h1]
    · set j : Nat :=
        if 2 * i + 1 + 1 < n && pqLess l (2 * i + 1 + 1) (2 * i + 1) then 2 * i + 1 + 1
        else 2 * i + 1 with hjdef
      have hjn : j < n := by
        rw [hjdef]; split
        · next hcond =>
          have := (Bool.and_eq_true _ _).mp hcond
          exact of_decide_eq_true this.1
        · omega
      have hij : i < j := by rw [hjdef]; split <;> omega
      by_cases h2 : pqLess l j i
      · have hrec := ih (pqSwap l i j) j
        rw [pqSwap_length] at hrec
        have hrec := hrec hn
        have hstep : heapDownGo (fuel + 1) l i n = heapDownGo fuel (pqSwap l i j) j n := by
          rw [heapDownGo]
          simp only [← hjdef, h1, if_neg h1, h2]
          simp
        rw [hstep]
        refine ⟨hrec.1, hrec.2.1.trans (pqSwap_perm l i j (by omega) (by omega)), ?_, ?_, ?_⟩
        · intro k hk
          rw [hrec.2.2.1 k hk, getD_pqSwap_other l i j k (by omega) (by omega)]
        · omega
        · intro heq
          exfalso
          have := hrec.2.2.2.1
          omega
      · have hstep : heapDownGo (fuel + 1) l i n = (l, i) := by
          rw [heapDownGo]
          simp only [← hjdef, h1, if_neg h1]
          simp [h2]
        simp [hstep]

theorem wt_pqSwap_fst (l : List Request) (i j : Nat) (hi : i < l.length)
    (hj : j < l.length) : wt (pqSwap l i j) i = wt l j := by
  unfold wt; rw [getD_pqSwap_fst l i j hi hj]

theorem wt_pqSwap_snd (l : List Request) (i j : Nat) (hj : j < l.length) :
    wt (pqSwap l i j) j = wt l i := by
  unfold wt; rw [getD_pqSwap_snd l i j hj]

theorem wt_pqSwap_other (l : List Request) (i j k : Nat) (hki : k ≠ i) (hkj : k ≠ j) :
    wt (pqSwap l i j) k = wt l k := by
  unfold wt; rw [getD_pqSwap_other l i j k hki hkj]

theorem downInv_step (l : List Request) (n i j : Nat) (moved : Bool)
    (hn : n ≤ l.length) (hinv : DownInv l n i moved)
    (hj : j = 2 * i + 1 ∨ j = 2 * i + 2) (hjn : j < n)
    (hmax : ∀ c, c < n → (c = 2 * i + 1 ∨ c = 2 * i + 2) → wt l c ≤ wt l j)
    (h2 : wt l i < wt l j) :
    DownInv (pqSwap l i j) n j true := by
  have hij : i < j := by omega
  have hilen : i < l.length := by omega
  have hjlen : j < l.length := by omega
  have hpj : parentIdx j = i := by
    rcases hj with rfl | rfl
    · exact parentIdx_child1 i
    · exact parentIdx_child2 i
  constructor
  · intro c hc hcn hpcj _
    by_cases hcj : c = j
    · rw [hcj, hpj, wt_pqSwap_snd l i j hjlen, wt_pqSwap_fst l i j hilen hjlen]
      exact le_of_lt h2
    · by_cases hci : c = i
      · rw [hci]
        have hi0 : 0 < i := hci ▸ hc
        have hpi_lt : parentIdx i < i := parentIdx_lt i hi0
        rw [wt_pqSwap_fst l i j hilen hjlen,
          wt_pqSwap_other l i j (parentIdx i) (by omega) (by omega)]
        exact hinv.2 hi0 j hjn hpj
      · by_cases hpci : parentIdx c = i
        · rw [hpci, wt_pqSwap_other l i j c hci hcj, wt_pqSwap_fst l i j hilen hjlen]
          exact hmax c hcn (child_of_parentIdx c i hc hpci)
        · have hpc_ne_j : parentIdx c ≠ j := hpcj
          rw [wt_pqSwap_other l i j c hci hcj,
            wt_pqSwap_other l i j (parentIdx c) hpci hpc_ne_j]
          exact hinv.1 c hc hcn hpci (fun _ => hci)
  · intro _ c hcn hpcj
    have hc0 : 0 < c := by
      by_contra hc
      have : c = 0 := by omega
      subst this
      have : parentIdx 0 = 0 := by unfold parentIdx; omega
      omega
    have hcj : c = 2 * j + 1 ∨ c = 2 * j + 2 := child_of_parentIdx c j hc0 hpcj
    have hcni : c ≠ i := by omega
    have hcnj : c ≠ j := by omega
    rw [hpj, wt_pqSwap_other l i j c hcni hcnj, wt_pqSwap_fst l i j hilen hjlen]
    have := hinv.1 c hc0 hcn (by omega) (fun _ => hcni)
    rw [hpcj] at this
    exact this

theorem heapDownGo_heap (fuel : Nat) (l : List Request) (i n : Nat) (moved : Bool)
    (hn : n ≤ l.length) (hfuel : n ≤ fuel + i) (hinv : DownInv l n i moved) :
    (∀ c, 0 < c → c < n → c ≠ (heapDownGo fuel l i n).2 →
      wt (heapDownGo fuel l i n).1 c ≤ wt (heapDownGo fuel l i n).1 (parentIdx c)) ∧
    (∀ c, c < n → parentIdx c = (heapDownGo fuel l i n).2 →
      wt (heapDownGo fuel l i n).1 c ≤
        wt (heapDownGo fuel l i n).1 (parentIdx (heapDownGo fuel l i n).2)) ∧
    ((moved = true ∨ i < (heapDownGo fuel l i n).2) →
      IsHeapUpTo (heapDownGo fuel l i n).1 n) := by
  induction fuel generalizing l i moved with
  | zero =>
    simp only [heapDownGo]
    have hni : n ≤ i := by omega
    refine ⟨?_, ?_, ?_⟩
    · intro c hc hcn _
      have hpc : parentIdx c < c := parentIdx_lt c hc
      exact hinv.1 c hc hcn (by omega) (fun _ => by omega)
    · intro c hcn hpc
      exfalso
      unfold parentIdx at hpc
      omega
    · intro _ c hcn hc
      have hpc : parentIdx c < c := parentIdx_lt c hc
      exact hinv.1 c hc hcn (by omega) (fun _ => by omega)
  | succ fuel ih =>
    by_cases h1 : n ≤ 2 * i + 1
    · have hstep : heapDownGo (fuel + 1) l i n = (l, i) := by
        simp [heapDownGo, h1]
      rw [hstep]
      dsimp only
      have hchild : ∀ c, c < n → parentIdx c = i → c ≠ i → False := by
        intro c hcn hpc hci
        have hc0 : 0 < c := by
          rcases Nat.eq_zero_or_pos c with rfl | h
          · unfold parentIdx at hpc; omega
          · exact h
        rcases child_of_parentIdx c i hc0 hpc with rfl | rfl <;> omega
      refine ⟨?_, ?_, ?_⟩
      · intro c hc hcn hci
        by_cases hpci : parentIdx c = i
        · exact (hchild c hcn hpci hci).elim
        · exact hinv.1 c hc hcn hpci (fun _ => hci)
      · intro c hcn hpc
        by_cases hci : c = i
        · have hi0 : i = 0 := by
            rw [hci] at hpc
            unfold parentIdx at hpc
            omega
          have hp0 : parentIdx (0 : Nat) = 0 := by unfold parentIdx; omega
          rw [hci, hi0, hp0]
        · exact (hchild c hcn hpc hci).elim
      · intro hm c hcn hc
        rcases hm with hm | hm
        · by_cases hci : c = i
          · have hi0 : 0 < i := hci ▸ hc
            have hlt := parentIdx_lt i hi0
            rw [hci]
            exact hinv.1 i hi0 (hci ▸ hcn) (by omega)
              (fun h => by rw [hm] at h; exact absurd h (by simp))
          · by_cases hpci : parentIdx c = i
            · exact (hchild c hcn hpci hci).elim
            · exact hinv.1 c hc hcn hpci (fun _ => hci)
        · omega
    · set j : Nat :=
        if 2 * i + 1 + 1 < n && pqLess l (2 * i + 1 + 1) (2 * i + 1) then 2 * i + 1 + 1
        else 2 * i + 1 with hjdef
      have hjn : j < n := by
        rw [hjdef]; split
        · next hcond =>
          have := (Bool.and_eq_true _ _).mp hcond
          exact of_decide_eq_true this.1
        · omega
      have hjshape : j = 2 * i + 1 ∨ j = 2 * i + 2 := by
        rw [hjdef]; split
        · right; omega
        · left; rfl
      have hmax : ∀ c, c < n → (c = 2 * i + 1 ∨ c = 2 * i + 2) → wt l c ≤ wt l j := by
        intro c hcn hcs
        rw [hjdef]
        split
        · next hcond =>
          have hlt := (pqLess_iff l (2 * i + 1 + 1) (2 * i + 1)).mp
            ((Bool.and_eq_true _ _).mp hcond).2
          rcases hcs with rfl | rfl
          · exact le_of_lt hlt
          · exact le_refl _
        · next hcond =>
          rcases hcs with rfl | rfl
          · exact le_refl _
          · have hn2 : 2 * i + 1 + 1 < n := by omega
            have hnp : ¬ (pqLess l (2 * i + 1 + 1) (2 * i + 1) = true) := by
              intro hp
              exact hcond (by simp [hn2, hp])
            have hnlt : ¬ (wt l (2 * i + 1) < wt l (2 * i + 1 + 1)) :=
              fun hw => hnp ((pqLess_iff l (2 * i + 1 + 1) (2 * i + 1)).mpr hw)
            exact le_of_not_lt hnlt
      by_cases h2 : pqLess l j i
      · have hwlt : wt l i < wt l j := (pqLess_iff l j i).mp h2
        have hstep : heapDownGo (fuel + 1) l i n = heapDownGo fuel (pqSwap l i j) j n := by
          rw [heapDownGo]
          simp only [← hjdef, h1, if_neg h1, h2]
          simp
        rw [hstep]
        have hinv' : DownInv (pqSwap l i j) n j true :=
          downInv_step l n i j moved hn hinv hjshape hjn hmax hwlt
        have hrec := ih (pqSwap l i j) j true (by rw [pqSwap_length]; exact hn)
          (by omega) hinv'
        refine ⟨hrec.1, hrec.2.1, ?_⟩
        intro _
        exact hrec.2.2 (Or.inl rfl)
      · have hwle : wt l j ≤ wt l i := by
          by_contra hlt
          exact h2 ((pqLess_iff l j i).mpr (lt_of_not_le hlt))
        have hstep : heapDownGo (fuel + 1) l i n = (l, i) := by
          rw [heapDownGo]
          simp only [← hjdef, h1, if_neg h1]
          simp [h2]
        rw [hstep]
        dsimp only
        have hchildle : ∀ c, c < n → parentIdx c = i → c ≠ i → wt l c ≤ wt l i := by
          intro c hcn hpc hci
          have hc0 : 0 < c := by
            rcases Nat.eq_zero_or_pos c with rfl | h
            · unfold parentIdx at hpc; omega
            · exact h
          exact le_trans (hmax c hcn (child_of_parentIdx c i hc0 hpc)) hwle
        refine ⟨?_, ?_, ?_⟩
        · intro c hc hcn hci
          by_cases hpci : parentIdx c = i
          · rw [hpci]
            exact hchildle c hcn hpci hci
          · exact hinv.1 c hc hcn hpci (fun _ => hci)
        · intro c hcn hpc
          by_cases hci : c = i
          · have hi0 : i = 0 := by
              rw [hci] at hpc
              unfold parentIdx at hpc
              omega
            have hp0 : parentIdx (0 : Nat) = 0 := by unfold parentIdx; omega
            rw [hci, hi0, hp0]
          · by_cases hi0 : 0 < i
            · exact hinv.2 hi0 c hcn hpc
            · have hieq : i = 0 := by omega
              have hp0 : parentIdx i = i := by rw [hieq]; unfold parentIdx; omega
              rw [hp0]
              exact hchildle c hcn hpc hci
        · intro hm c hcn hc
          rcases hm with hm | hm
          · by_cases hci : c = i
            · have hi0 : 0 < i := hci ▸ hc
              have hlt := parentIdx_lt i hi0
              rw [hci]
              exact hinv.1 i hi0 (hci ▸ hcn) (by omega)
                (fun h => by rw [hm] at h; exact absurd h (by simp))
            · by_cases hpci : parentIdx c = i
              · rw [hpci]
                exact hchildle c hcn hpci hci
              · exact hinv.1 c hc hcn hpci (fun _ => hci)
          · omega

theorem heapUp_facts (fuel : Nat) (l : List Request) (j : Nat) (hj : j < l.length) :
    (heapUp fuel l j).length = l.length ∧
    (heapUp fuel l j).Perm l ∧
    (∀ k, j < k → (heapUp fuel l j).getD k dreq = l.getD k dreq) := by
  induction fuel generalizing l j with
  | zero => simp [heapUp]
  | succ fuel ih =>
    by_cases h1 : ((j - 1) / 2 = j) || !(pqLess l j ((j - 1) / 2))
    · have hstep : heapUp (fuel + 1) l j = l := by
        rw [heapUp]
        simp only [h1, if_true]
      simp [hstep]
    · have hij : (j - 1) / 2 < j := by
        rcases Bool.or_eq_false_iff.mp (Bool.eq_false_iff.mpr h1) with ⟨ha, _⟩
        have : (j - 1) / 2 ≠ j := by simpa using ha
        omega
      have hstep : heapUp (fuel + 1) l j = heapUp fuel (pqSwap l ((j - 1) / 2) j) ((j - 1) / 2) := by
        rw [heapUp]
        simp [h1]
      rw [hstep]
      have hrec := ih (pqSwap l ((j - 1) / 2) j) ((j - 1) / 2)
        (by rw [pqSwap_length]; omega)
      refine ⟨by rw [hrec.1, pqSwap_length],
        hrec.2.1.trans (pqSwap_perm l _ j (by omega) hj), ?_⟩
      intro k hk
      rw [hrec.2.2 k (by omega), getD_pqSwap_other l _ j k (by omega) (by omega)]

theorem upInv_step (l : List Request) (n j : Nat) (hn : n ≤ l.length) (hjn : j < n)
    (hj0 : 0 < j) (hinv : UpInv l n j) (h2 : wt l (parentIdx j) < wt l j) :
    UpInv (pqSwap l (parentIdx j) j) n (parentIdx j) := by
  have hij : parentIdx j < j := parentIdx_lt j hj0
  have hilen : parentIdx j < l.length := by omega
  have hjlen : j < l.length := by omega
  constructor
  · intro c hc hcn hci
    by_cases hcj : c = j
    · rw [hcj, wt_pqSwap_snd l _ j hjlen, wt_pqSwap_fst l _ j hilen hjlen]
      exact le_of_lt h2
    · by_cases hpcj : parentIdx c = j
      · have hcgt : j < c := by
          have := parentIdx_lt c hc
          omega
        rw [hpcj, wt_pqSwap_other l _ j c (by omega) hcj,
          wt_pqSwap_snd l _ j hjlen]
        exact hinv.2 c hcn hpcj
      · by_cases hpci : parentIdx c = parentIdx j
        · rw [hpci, wt_pqSwap_other l _ j c hci hcj,
            wt_pqSwap_fst l _ j hilen hjlen]
          have := hinv.1 c hc hcn hcj
          rw [hpci] at this
          exact le_trans this (le_of_lt h2)
        · rw [wt_pqSwap_other l _ j c hci hcj,
            wt_pqSwap_other l _ j (parentIdx c) hpci hpcj]
          exact hinv.1 c hc hcn hcj
  · intro c hcn hpc
    by_cases hi0 : parentIdx j = 0
    · rw [hi0] at hpc ⊢
      have hp00 : parentIdx (0 : Nat) = 0 := by unfold parentIdx; omega
      have h0len : (0 : Nat) < l.length := by omega
      have h2' : wt l 0 < wt l j := by rw [← hi0]; exact h2
      rw [hp00, wt_pqSwap_fst l 0 j h0len hjlen]
      by_cases hcj : c = j
      · rw [hcj, wt_pqSwap_snd l 0 j hjlen]
        exact le_of_lt h2'
      · by_cases hc0 : c = 0
        · rw [hc0, wt_pqSwap_fst l 0 j h0len hjlen]
        · have hcpos : 0 < c := Nat.pos_of_ne_zero hc0
          rw [wt_pqSwap_other l 0 j c hc0 hcj]
          have := hinv.1 c hcpos hcn hcj
          rw [hpc] at this
          exact le_trans this (le_of_lt h2')
    · have hipos : 0 < parentIdx j := Nat.pos_of_ne_zero hi0
      have hpi_lt : parentIdx (parentIdx j) < parentIdx j := parentIdx_lt _ hipos
      rw [wt_pqSwap_other l _ j (parentIdx (parentIdx j)) (by omega) (by omega)]
      by_cases hcj : c = j
      · rw [hcj, wt_pqSwap_snd l _ j hjlen]
        exact hinv.1 (parentIdx j) hipos (by omega) (by omega)
      · have hcni : c ≠ parentIdx j := by
          intro h
          rw [h] at hpc
          omega
        have hcpos : 0 < c := by
          rcases Nat.eq_zero_or_pos c with rfl | h
          · exfalso
            have hp00 : parentIdx (0 : Nat) = 0 := by unfold parentIdx; omega
            rw [hp00] at hpc
            omega
          · exact h
        rw [wt_pqSwap_other l _ j c hcni hcj]
        have := hinv.1 c hcpos hcn hcj
        rw [hpc] at this
        exact le_trans this
          (hinv.1 (parentIdx j) hipos (by omega) (by omega))

theorem heapUp_heap (fuel : Nat) (l : List Request) (j n : Nat)
    (hn : n ≤ l.length) (hjn : j < n) (hfuel : j < fuel) (hinv : UpInv l n j) :
    IsHeapUpTo (heapUp fuel l j) n := by
  induction fuel generalizing l j with
  | zero => omega
  | succ fuel ih =>
    by_cases h1 : ((j - 1) / 2 = j) || !(pqLess l j ((j - 1) / 2))
    · have hstep : heapUp (fuel + 1) l j = l := by
        rw [heapUp]
        simp only [h1, if_true]
      rw [hstep]
      rcases Bool.or_eq_true_iff.mp h1 with hc | hc
      · have hj0 : j = 0 := by
          have := of_decide_eq_true hc
          omega
        intro c hcn hcpos
        exact hinv.1 c hcpos hcn (by omega)
      · have hle : wt l j ≤ wt l (parentIdx j) := by
          have hfalse : pqLess l j ((j - 1) / 2) = false := by
            simpa using hc
          have : ¬ (wt l ((j - 1) / 2) < wt l j) := by
            intro hw
            rw [(pqLess_iff l j ((j - 1) / 2)).mpr hw] at hfalse
            exact absurd hfalse (by simp)
          unfold parentIdx
          exact le_of_not_lt this
        intro c hcn hcpos
        by_cases hcj : c = j
        · rw [hcj]
          exact hle
        · exact hinv.1 c hcpos hcn hcj
    · have hij : (j - 1) / 2 < j := by
        rcases Bool.or_eq_false_iff.mp (Bool.eq_false_iff.mpr h1) with ⟨ha, _⟩
        have : (j - 1) / 2 ≠ j := by simpa using ha
        omega
      have hj0 : 0 < j := by omega
      have hlt : wt l (parentIdx j) < wt l j := by
        rcases Bool.or_eq_false_iff.mp (Bool.eq_false_iff.mpr h1) with ⟨_, hb⟩
        have hp : pqLess l j ((j - 1) / 2) = true := by simpa using hb
        unfold parentIdx
        exact (pqLess_iff l j ((j - 1) / 2)).mp hp
      have hstep : heapUp (fuel + 1) l j = heapUp fuel (pqSwap l ((j - 1) / 2) j) ((j - 1) / 2) := by
        rw [heapUp]
        simp [h1]
      rw [hstep]
      have hinv' : UpInv (pqSwap l (parentIdx j) j) n (parentIdx j) :=
        upInv_step l n j hn hjn hj0 hinv hlt
      have hpj : parentIdx j = (j - 1) / 2 := rfl
      rw [← hpj]
      exact ih (pqSwap l (parentIdx j) j) (parentIdx j)
        (by rw [pqSwap_length]; exact hn) (by omega) (by omega) hinv'

theorem wt_le_wt_zero (l : List Request) (n : Nat) (h : IsHeapUpTo l n) (k : Nat)
    (hk : k < n) : wt l k ≤ wt l 0 := by
  induction k using Nat.strong_induction_on with
  | _ k ih =>
    rcases Nat.eq_zero_or_pos k with rfl | hk0
    · exact le_refl _
    · have hp := parentIdx_lt k hk0
      exact le_trans (h k hk hk0) (ih (parentIdx k) hp (by omega))

theorem wt_append_lt (l l' : List Request) (k : Nat) (hk : k < l.length) :
    wt (l ++ l') k = wt l k := by
  unfold wt
  rw [List.getD_eq_getElem?_getD, List.getD_eq_getElem?_getD,
    List.getElem?_append_left hk]

theorem wt_dropLast (l : List Request) (k : Nat) (hk : k < l.length - 1) :
    wt l.dropLast k = wt l k := by
  unfold wt
  rw [List.getD_eq_getElem?_getD, List.getD_eq_getElem?_getD, List.dropLast_eq_take,
    List.getElem?_take_of_lt hk]

theorem getD_getLast? (l : List Request) :
    l.getLast?.getD dreq = l.getD (l.length - 1) dreq := by
  rw [List.getLast?_eq_getElem?, List.getD_eq_getElem?_getD]

theorem heapPush_perm (l : List Request) (r : Request) :
    (heapPush l r).Perm (r :: l) ∧ (heapPush l r).length = l.length + 1 := by
  have h := heapUp_facts (l.length + 1) (l ++ [r]) l.length (by simp)
  constructor
  · exact h.2.1.trans (List.perm_append_singleton r l)
  · show (heapUp (l.length + 1) (l ++ [r]) l.length).length = l.length + 1
    rw [h.1]; simp

theorem heapPush_isHeap (l : List Request) (r : Request) (h : IsHeap l) :
    IsHeap (heapPush l r) := by
  have hinv : UpInv (l ++ [r]) (l.length + 1) l.length := by
    constructor
    · intro c hc hcn hcj
      have hclt : c < l.length := by omega
      have hplt : parentIdx c < c := parentIdx_lt c hc
      rw [wt_append_lt l [r] c hclt, wt_append_lt l [r] (parentIdx c) (by omega)]
      exact h c hclt hc
    · intro c hcn hpc
      rcases Nat.eq_zero_or_pos c with rfl | hc0
      · have hl0 : l.length = 0 := by
          unfold parentIdx at hpc
          omega
        have hp00 : parentIdx (0 : Nat) = 0 := by unfold parentIdx; omega
        rw [hl0, hp00]
      · rcases child_of_parentIdx c l.length hc0 hpc with rfl | rfl <;> omega
  have hmain := heapUp_heap (l.length + 1) (l ++ [r]) l.length (l.length + 1)
    (by simp) (by omega) (by omega) hinv
  have hlen := (heapUp_facts (l.length + 1) (l ++ [r]) l.length (by simp)).1
  unfold IsHeap heapPush
  rw [hlen]
  simpa using hmain

theorem heapPop_spec (l : List Request) (h : IsHeap l) (hne : l ≠ []) :
    (heapPop l).1 = l.getD 0 dreq ∧
    ((heapPop l).1 :: (heapPop l).2).Perm l ∧
    IsHeap (heapPop l).2 ∧
    (heapPop l).2.length = l.length - 1 := by
  have hlen : 0 < l.length := List.length_pos.mpr hne
  set n : Nat := l.length - 1 with hn
  set l1 : List Request := pqSwap l 0 n with hl1
  have hl1len : l1.length = l.length := pqSwap_length l 0 n
  have hinv : DownInv l1 n 0 false := by
    constructor
    · intro c hc hcn hpc hc0
      have hplt : parentIdx c < c := parentIdx_lt c hc
      rw [hl1, wt_pqSwap_other l 0 n c (by omega) (by omega),
        wt_pqSwap_other l 0 n (parentIdx c) (by omega) (by omega)]
      exact h c (by omega) hc
    · intro h0
      omega
  have hfacts := heapDownGo_facts n l1 0 n (by omega)
  have hheap := heapDownGo_heap n l1 0 n false (by omega) (by omega) hinv
  set res : List Request × Nat := heapDownGo n l1 0 n with hres
  have hpop : heapPop l = (res.1.getLast?.getD dreq, res.1.dropLast) := by
    rw [heapPop, heapDown]
  have hreslen : res.1.length = l.length := by rw [hfacts.1, hl1len]
  have hresne : res.1 ≠ [] := by
    intro hemp
    rw [hemp] at hreslen
    simp at hreslen
    omega
  have hheap2 : IsHeapUpTo res.1 n := by
    rcases Nat.eq_zero_or_pos res.2 with h0 | hpos
    · intro c hcn hc
      exact hheap.1 c hc hcn (by omega)
    · exact hheap.2.2 (Or.inr hpos)
  have hlast : res.1.getLast?.getD dreq = l.getD 0 dreq := by
    rw [getD_getLast?, hreslen]
    rw [hfacts.2.2.1 (l.length - 1) (by omega)]
    rw [hl1, getD_pqSwap_snd l 0 n (by omega)]
  refine ⟨?_, ?_, ?_, ?_⟩
  · rw [hpop]
    exact hlast
  · rw [hpop]
    have hsplit : res.1.dropLast ++ [res.1.getLast hresne] = res.1 :=
      List.dropLast_concat_getLast hresne
    have hlast' : res.1.getLast?.getD dreq = res.1.getLast hresne := by
      rw [List.getLast?_eq_getLast res.1 hresne]
      rfl
    have hp1 : (res.1.getLast hresne :: res.1.dropLast).Perm res.1 := by
      conv_rhs => rw [← hsplit]
      exact (List.perm_append_singleton _ _).symm
    show (res.1.getLast?.getD dreq :: res.1.dropLast).Perm l
    rw [hlast']
    exact hp1.trans (hfacts.2.1.trans (pqSwap_perm l 0 n (by omega) (by omega)))
  · rw [hpop]
    show IsHeap res.1.dropLast
    intro c hcn hc
    simp only [List.length_dropLast, hreslen] at hcn
    rw [wt_dropLast res.1 c (by omega), wt_dropLast res.1 (parentIdx c)
      (by have := parentIdx_lt c hc; omega)]
    exact hheap2 c (by omega) hc
  · rw [hpop]
    show res.1.dropLast.length = l.length - 1
    simp [hreslen]

theorem lastSplit_perm (l2 : List Request) (hne : l2 ≠ []) :
    (l2.getLast?.getD dreq :: l2.dropLast).Perm l2 := by
  have hsplit : l2.dropLast ++ [l2.getLast hne] = l2 :=
    List.dropLast_concat_getLast hne
  have hlast' : l2.getLast?.getD dreq = l2.getLast hne := by
    rw [List.getLast?_eq_getLast l2 hne]
    rfl
  rw [hlast']
  conv_rhs => rw [← hsplit]
  exact (List.perm_append_singleton _ _).symm

theorem isHeap_dropLast (l2 : List Request) (hheap : IsHeapUpTo l2 (l2.length - 1)) :
    IsHeap l2.dropLast := by
  intro c hcn hc
  simp only [List.length_dropLast] at hcn
  rw [wt_dropLast l2 c hcn, wt_dropLast l2 (parentIdx c)
    (by have := parentIdx_lt c hc; omega)]
  exact hheap c hcn hc

theorem heapRemove_spec (l : List Request) (i : Nat) (h : IsHeap l) (hi : i < l.length) :
    (heapRemove l i).1 = l.getD i dreq ∧
    ((heapRemove l i).1 :: (heapRemove l i).2).Perm l ∧
    IsHeap (heapRemove l i).2 ∧
    (heapRemove l i).2.length = l.length - 1 := by
  have hlen : 0 < l.length := by omega
  have hne : l ≠ [] := by
    intro hemp
    rw [hemp] at hlen
    simp at hlen
  by_cases hcase : l.length - 1 = i
  · have hrem : heapRemove l i = (l.getLast?.getD dreq, l.dropLast) := by
      rw [heapRemove]
      simp [hcase]
    rw [hrem]
    refine ⟨?_, ?_, ?_, ?_⟩
    · rw [getD_getLast?, hcase]
    · exact lastSplit_perm l hne
    · exact isHeap_dropLast l (fun c hcn hc => h c (by omega) hc)
    · simp
  · have hin : i < l.length - 1 := by omega
    set n : Nat := l.length - 1 with hn
    set l1 : List Request := pqSwap l i n with hl1
    have hl1len : l1.length = l.length := pqSwap_length l i n
    have hinv : DownInv l1 n i false := by
      constructor
      · intro c hc hcn hpc hci
        have hplt : parentIdx c < c := parentIdx_lt c hc
        rw [hl1, wt_pqSwap_other l i n c (hci rfl) (by omega),
          wt_pqSwap_other l i n (parentIdx c) hpc (by omega)]
        exact h c (by omega) hc
      · intro hi0 c hcn hpc
        have hc0 : 0 < c := by
          rcases Nat.eq_zero_or_pos c with rfl | hp
          · exfalso
            unfold parentIdx at hpc
            omega
          · exact hp
        have hcchild : c = 2 * i + 1 ∨ c = 2 * i + 2 := child_of_parentIdx c i hc0 hpc
        have hplt : parentIdx i < i := parentIdx_lt i hi0
        rw [hl1, wt_pqSwap_other l i n c (by omega) (by omega),
          wt_pqSwap_other l i n (parentIdx i) (by omega) (by omega)]
        have h1 : wt l c ≤ wt l i := by
          have := h c (by omega) hc0
          rw [hpc] at this
          exact this
        have h2 : wt l i ≤ wt l (parentIdx i) := h i (by omega) hi0
        exact le_trans h1 h2
    have hfacts := heapDownGo_facts n l1 i n (by omega)
    have hheap := heapDownGo_heap n l1 i n false (by omega) (by omega) hinv
    set res : List Request × Nat := heapDownGo n l1 i n with hres
    set l2 : List Request :=
      if decide (i < res.2) then res.1 else heapUp (i + 1) res.1 i with hl2
    have hrem : heapRemove l i = (l2.getLast?.getD dreq, l2.dropLast) := by
      unfold heapRemove heapDown
      simp only [← hn, ← hl1, ← hres, ← hl2]
      rw [if_neg (by omega)]
    have hl2facts : l2.length = l.length ∧ l2.Perm l ∧ IsHeapUpTo l2 n ∧
        l2.getD n dreq = l.getD i dreq := by
      rw [hl2]
      by_cases hmove : i < res.2
      · rw [if_pos (by simpa using hmove)]
        refine ⟨by rw [hfacts.1, hl1len], hfacts.2.1.trans
          (pqSwap_perm l i n (by omega) (by omega)),
          hheap.2.2 (Or.inr hmove), ?_⟩
        rw [hfacts.2.2.1 n (le_refl n), hl1, getD_pqSwap_snd l i n (by omega)]
      · have hid : res.2 = i := by
          have := hfacts.2.2.2.1
          omega
        have hsame : res.1 = l1 := hfacts.2.2.2.2 hid
        rw [if_neg (by simpa using hmove)]
        have hupfacts := heapUp_facts (i + 1) res.1 i (by rw [hfacts.1, hl1len]; omega)
        have hupinv : UpInv res.1 n i := by
          constructor
          · intro c hc hcn hci
            exact hheap.1 c hc hcn (by omega)
          · intro c hcn hpc
            have := hheap.2.1 c hcn (by omega)
            rw [hid] at this
            exact this
        have hupheap := heapUp_heap (i + 1) res.1 i n
          (by rw [hfacts.1, hl1len]; omega) hin (by omega) hupinv
        refine ⟨by rw [hupfacts.1, hfacts.1, hl1len],
          (hupfacts.2.1.trans (hfacts.2.1.trans
            (pqSwap_perm l i n (by omega) (by omega)))), hupheap, ?_⟩
        rw [hupfacts.2.2 n (by omega), hsame, hl1, getD_pqSwap_snd l i n (by omega)]
    have hl2ne : l2 ≠ [] := by
      intro hemp
      have := hl2facts.1
      rw [hemp] at this
      simp at this
      omega
    rw [hrem]
    refine ⟨?_, ?_, ?_, ?_⟩
    · show l2.getLast?.getD dreq = l.getD i dreq
      rw [getD_getLast?, hl2facts.1]
      exact hl2facts.2.2.2
    · exact (lastSplit_perm l2 hl2ne).trans hl2facts.2.1
    · exact isHeap_dropLast l2 (by rw [hl2facts.1]; exact hl2facts.2.2.1)
    · simp [hl2facts.1]

theorem heapPop_max (l : List Request) (h : IsHeap l) (r : Request) (hr : r ∈ l) :
    r.weight ≤ (heapPop l).1.weight := by
  obtain ⟨k, hk⟩ := List.getElem?_of_mem hr
  have hklt : k < l.length := by
    by_contra hge
    rw [List.getElem?_eq_none (by omega)] at hk
    exact absurd hk (by simp)
  have hwk : wt l k = r.weight := by
    unfold wt
    rw [List.getD_eq_getElem?_getD, hk]
    rfl
  have hne : l ≠ [] := by
    intro hemp
    rw [hemp] at hklt
    simp at hklt
  have h0 := (heapPop_spec l h hne).1
  rw [h0]
  have := wt_le_wt_zero l l.length h k hklt
  rw [hwk] at this
  exact this

theorem releaseGo_basic (fuel : Nat) (s : Sem) :
    (releaseGo fuel s).capacity = s.capacity ∧
    (releaseGo fuel s).fastGrants = s.fastGrants ∧
    (releaseGo fuel s).canceledIds = s.canceledIds ∧
    (((releaseGo fuel s).grants = s.grants ∧ (releaseGo fuel s).used = s.used - 1) ∨
      (∃ r, r ∈ s.pq ∧ r.state = RState.waiting ∧
        (releaseGo fuel s).grants = s.grants ++ [r] ∧
        (releaseGo fuel s).used = s.used)) ∧
    (∀ r, r ∈ (releaseGo fuel s).pq → r ∈ s.pq) := by
  induction fuel generalizing s with
  | zero =>
    exact ⟨rfl, rfl, rfl, Or.inl ⟨rfl, rfl⟩, fun r hr => hr⟩
  | succ fuel ih =>
    by_cases hemp : s.pq.isEmpty
    · have hstep : releaseGo (fuel + 1) s = { s with used := s.used - 1 } := by
        rw [releaseGo]
        simp [hemp]
      rw [hstep]
      exact ⟨rfl, rfl, rfl, Or.inl ⟨rfl, rfl⟩, fun r hr => hr⟩
    · have hne : s.pq ≠ [] := by
        intro h
        rw [h] at hemp
        simp at hemp
      have hperm : ((heapPop s.pq).1 :: (heapPop s.pq).2).Perm s.pq := by
        have hlen : 0 < s.pq.length := List.length_pos.mpr hne
        have h1 := heapDownGo_facts (s.pq.length - 1) (pqSwap s.pq 0 (s.pq.length - 1))
          0 (s.pq.length - 1) (by rw [pqSwap_length]; omega)
        have hp : heapPop s.pq =
            ((heapDownGo (s.pq.length - 1) (pqSwap s.pq 0 (s.pq.length - 1)) 0
              (s.pq.length - 1)).1.getLast?.getD dreq,
             (heapDownGo (s.pq.length - 1) (pqSwap s.pq 0 (s.pq.length - 1)) 0
              (s.pq.length - 1)).1.dropLast) := by
          rw [heapPop, heapDown]
        rw [hp]
        have hlen2 : (heapDownGo (s.pq.length - 1) (pqSwap s.pq 0 (s.pq.length - 1)) 0
            (s.pq.length - 1)).1.length = s.pq.length := by
          rw [h1.1, pqSwap_length]
        have hne2 : (heapDownGo (s.pq.length - 1) (pqSwap s.pq 0 (s.pq.length - 1)) 0
            (s.pq.length - 1)).1 ≠ [] := by
          intro h
          rw [h] at hlen2
          simp at hlen2
          omega
        exact (lastSplit_perm _ hne2).trans
          (h1.2.1.trans (pqSwap_perm s.pq 0 (s.pq.length - 1) (by omega) (by omega)))
      by_cases hw : (heapPop s.pq).1.state == RState.waiting
      · have hstep : releaseGo (fuel + 1) s =
            { s with pq := (heapPop s.pq).2, grants := s.grants ++ [(heapPop s.pq).1] } := by
          rw [releaseGo]
          simp only [hemp, if_false, hw, if_true]
          simp [hemp, hw]
        rw [hstep]
        refine ⟨rfl, rfl, rfl, Or.inr ⟨(heapPop s.pq).1, ?_, by simpa using hw, rfl, rfl⟩, ?_⟩
        · exact hperm.mem_iff.mp (List.mem_cons_self _ _)
        · intro r hr
          exact hperm.mem_iff.mp (List.mem_cons_of_mem _ hr)
      · have hstep : releaseGo (fuel + 1) s =
            releaseGo fuel { s with pq := (heapPop s.pq).2 } := by
          rw [releaseGo]
          simp [hemp, hw]
        rw [hstep]
        have hrec := ih { s with pq := (heapPop s.pq).2 }
        refine ⟨hrec.1, hrec.2.1, hrec.2.2.1, ?_, ?_⟩
        · rcases hrec.2.2.2.1 with ⟨hg, hu⟩ | ⟨r, hrmem, hrw, hg, hu⟩
          · exact Or.inl ⟨hg, hu⟩
          · exact Or.inr ⟨r, hperm.mem_iff.mp (List.mem_cons_of_mem _ hrmem), hrw, hg, hu⟩
        · intro r hr
          exact hperm.mem_iff.mp (List.mem_cons_of_mem _ (hrec.2.2.2.2 r hr))

theorem releaseGo_heapSpec (fuel : Nat) (s : Sem) (hheap : IsHeap s.pq)
    (hfuel : s.pq.length ≤ fuel) :
    ((∀ r, r ∈ s.pq → r.state ≠ RState.waiting) ∧
      (releaseGo fuel s).pq = [] ∧
      (releaseGo fuel s).grants = s.grants ∧
      (releaseGo fuel s).used = s.used - 1) ∨
    (∃ r dropped,
      r ∈ s.pq ∧ r.state = RState.waiting ∧
      (∀ d, d ∈ dropped → d.state ≠ RState.waiting) ∧
      s.pq.Perm (r :: (dropped ++ (releaseGo fuel s).pq)) ∧
      IsHeap (releaseGo fuel s).pq ∧
      (releaseGo fuel s).grants = s.grants ++ [r] ∧
      (releaseGo fuel s).used = s.used ∧
      (∀ r', r' ∈ s.pq → r'.state = RState.waiting → r'.weight ≤ r.weight)) := by
  induction fuel generalizing s with
  | zero =>
    have hpq : s.pq = [] := by
      cases h : s.pq with
      | nil => rfl
      | cons a t => rw [h] at hfuel; simp at hfuel
    left
    exact ⟨fun r hr => by rw [hpq] at hr; simp at hr, by simpa using hpq, rfl, rfl⟩
  | succ fuel ih =>
    by_cases hemp : s.pq.isEmpty
    · have hpq : s.pq = [] := by
        cases h : s.pq with
        | nil => rfl
        | cons a t => rw [h] at hemp; simp at hemp
      have hstep : releaseGo (fuel + 1) s = { s with used := s.used - 1 } := by
        rw [releaseGo]
        simp [hemp]
      rw [hstep]
      left
      exact ⟨fun r hr => by rw [hpq] at hr; simp at hr, hpq, rfl, rfl⟩
    · have hne : s.pq ≠ [] := by
        intro h
        rw [h] at hemp
        simp at hemp
      have hpop := heapPop_spec s.pq hheap hne
      by_cases hw : (heapPop s.pq).1.state == RState.waiting
      · have hstep : releaseGo (fuel + 1) s =
            { s with pq := (heapPop s.pq).2, grants := s.grants ++ [(heapPop s.pq).1] } := by
          rw [releaseGo]
          simp [hemp, hw]
        rw [hstep]
        right
        refine ⟨(heapPop s.pq).1, [], hpop.2.1.mem_iff.mp (List.mem_cons_self _ _),
          by simpa using hw, by simp, ?_, hpop.2.2.1, rfl, rfl, ?_⟩
        · exact hpop.2.1.symm
        · intro r' hr' _
          exact heapPop_max s.pq hheap r' hr'
      · have hstep : releaseGo (fuel + 1) s =
            releaseGo fuel { s with pq := (heapPop s.pq).2 } := by
          rw [releaseGo]
          simp [hemp, hw]
        rw [hstep]
        have hwne : (heapPop s.pq).1.state ≠ RState.waiting := by
          simpa using hw
        have hrec := ih { s with pq := (heapPop s.pq).2 } hpop.2.2.1
          (by simp only []; rw [hpop.2.2.2]; omega)
        have hmemsplit : ∀ r, r ∈ s.pq → r = (heapPop s.pq).1 ∨ r ∈ (heapPop s.pq).2 := by
          intro r hr
          have := hpop.2.1.mem_iff.mpr hr
          simpa using this
        rcases hrec with ⟨hall, hpq, hg, hu⟩ | ⟨r, dropped, hrmem, hrw, hdr, hperm', hish, hg, hu, hmax⟩
        · left
          refine ⟨?_, hpq, hg, hu⟩
          intro r hr
          rcases hmemsplit r hr with rfl | hr2
          · exact hwne
          · exact hall r hr2
        · right
          refine ⟨r, (heapPop s.pq).1 :: dropped,
            hpop.2.1.mem_iff.mp (List.mem_cons_of_mem _ hrmem), hrw, ?_, ?_, hish, hg, hu, ?_⟩
          · intro d hd
            rcases List.mem_cons.mp hd with rfl | hd2
            · exact hwne
            · exact hdr d hd2
          · have h1 : s.pq.Perm ((heapPop s.pq).1 :: (heapPop s.pq).2) := hpop.2.1.symm
            have h2 : ((heapPop s.pq).1 :: (heapPop s.pq).2).Perm
                ((heapPop s.pq).1 :: (r :: (dropped ++
                  (releaseGo fuel { s with pq := (heapPop s.pq).2 }).pq))) :=
              hperm'.cons _
            have h3 : ((heapPop s.pq).1 :: (r :: (dropped ++
                (releaseGo fuel { s with pq := (heapPop s.pq).2 }).pq))).Perm
                (r :: ((heapPop s.pq).1 :: (dropped ++
                  (releaseGo fuel { s with pq := (heapPop s.pq).2 }).pq))) :=
              List.Perm.swap r (heapPop s.pq).1 _
            exact (h1.trans h2).trans h3
          · intro r' hr' hr'w
            rcases hmemsplit r' hr' with rfl | hr2
            · exact absurd hr'w hwne
            · exact hmax r' hr2 hr'w

theorem wt_map_wt (l : List Request) (f : Request → Request)
    (hf : ∀ r, (f r).weight = r.weight) (k : Nat) : wt (l.map f) k = wt l k := by
  unfold wt
  rw [List.getD_eq_getElem?_getD, List.getD_eq_getElem?_getD, List.getElem?_map]
  cases h : l[k]? with
  | none => rfl
  | some r => simp [hf]

theorem cancelMark_fields (s : Sem) (id : Nat) :
    (cancelMark s id).capacity = s.capacity ∧
    (cancelMark s id).used = s.used ∧
    (cancelMark s id).grants = s.grants ∧
    (cancelMark s id).fastGrants = s.fastGrants := by
  unfold cancelMark
  split <;> exact ⟨rfl, rfl, rfl, rfl⟩

theorem cancelMark_isHeap (s : Sem) (id : Nat) (h : IsHeap s.pq) :
    IsHeap (cancelMark s id).pq := by
  unfold cancelMark
  split
  · intro c hcn hc
    simp only [List.length_map] at hcn
    rw [wt_map_wt _ _ (fun r => by split <;> rfl) c,
      wt_map_wt _ _ (fun r => by split <;> rfl) (parentIdx c)]
    exact h c hcn hc
  · exact h

theorem cancelRemove_fields (s : Sem) (id : Nat) :
    (cancelRemove s id).capacity = s.capacity ∧
    (cancelRemove s id).used = s.used ∧
    (cancelRemove s id).grants = s.grants ∧
    (cancelRemove s id).fastGrants = s.fastGrants ∧
    (cancelRemove s id).canceledIds = s.canceledIds := by
  unfold cancelRemove
  split <;> exact ⟨rfl, rfl, rfl, rfl, rfl⟩

theorem findIdx?_lt_length (l : List Request) (p : Request → Bool) (i : Nat)
    (h : l.findIdx? p = some i) : i < l.length := by
  obtain ⟨hlt, -⟩ := List.findIdx?_eq_some_iff_getElem.mp h
  exact hlt

theorem cancelRemove_isHeap (s : Sem) (id : Nat) (h : IsHeap s.pq) :
    IsHeap (cancelRemove s id).pq := by
  unfold cancelRemove
  cases hfind : s.pq.findIdx? (fun r => r.id == id) with
  | none => exact h
  | some i =>
    have hi := findIdx?_lt_length s.pq _ i hfind
    exact (heapRemove_spec s.pq i h hi).2.2.1

theorem cancelRemove_subset (s : Sem) (id : Nat) (h : IsHeap s.pq) :
    ∀ r, r ∈ (cancelRemove s id).pq → r ∈ s.pq := by
  unfold cancelRemove
  cases hfind : s.pq.findIdx? (fun r => r.id == id) with
  | none => exact fun r hr => hr
  | some i =>
    have hi := findIdx?_lt_length s.pq _ i hfind
    intro r hr
    exact (heapRemove_spec s.pq i h hi).2.1.mem_iff.mp (List.mem_cons_of_mem _ hr)

theorem waitAcquire_cases (s : Sem) (w : Int) (id : Nat) :
    (s.used < (s.capacity : Int) ∧
      waitAcquire s w id =
        { s with used := s.used + 1, fastGrants := s.fastGrants ++ [id] }) ∨
    (¬ s.used < (s.capacity : Int) ∧
      waitAcquire s w id = { s with pq := heapPush s.pq ⟨w, id, .waiting⟩ }) := by
  unfold waitAcquire
  by_cases hc : s.used < (s.capacity : Int)
  · left
    exact ⟨hc, by rw [if_pos hc]⟩
  · right
    exact ⟨hc, by rw [if_neg hc]⟩

theorem semStep_capacity (s : Sem) (op : SemOp) :
    (semStep s op).capacity = s.capacity := by
  cases op with
  | acquire w id =>
    rcases waitAcquire_cases s w id with ⟨-, hs⟩ | ⟨-, hs⟩ <;> rw [semStep, hs]
  | cancel id =>
    rw [semStep]
    rw [(cancelRemove_fields (cancelMark s id) id).1, (cancelMark_fields s id).1]
  | cancelMarkOp id => exact (cancelMark_fields s id).1
  | cancelRemoveOp id => exact (cancelRemove_fields s id).1
  | releaseOp => exact (releaseGo_basic s.pq.length s).1

theorem semStep_isHeap (s : Sem) (op : SemOp) (h : IsHeap s.pq) :
    IsHeap (semStep s op).pq := by
  cases op with
  | acquire w id =>
    rcases waitAcquire_cases s w id with ⟨-, hs⟩ | ⟨-, hs⟩ <;> rw [semStep, hs]
    · exact h
    · exact heapPush_isHeap s.pq _ h
  | cancel id =>
    exact cancelRemove_isHeap (cancelMark s id) id (cancelMark_isHeap s id h)
  | cancelMarkOp id => exact cancelMark_isHeap s id h
  | cancelRemoveOp id => exact cancelRemove_isHeap s id h
  | releaseOp =>
    show IsHeap (releaseGo s.pq.length s).pq
    rcases releaseGo_heapSpec s.pq.length s h (le_refl _) with ⟨-, hpq, -, -⟩ | ⟨r, d, hspec⟩
    · rw [hpq]
      intro c hcn hc
      simp at hcn
    · exact hspec.2.2.2.2.1

theorem semRun_isHeap (s : Sem) (ops : List SemOp) (h : IsHeap s.pq) :
    IsHeap (semRun s ops).pq := by
  induction ops generalizing s with
  | nil => exact h
  | cons op ops ih => exact ih (semStep s op) (semStep_isHeap s op h)

theorem semRun_capacity (s : Sem) (ops : List SemOp) :
    (semRun s ops).capacity = s.capacity := by
  induction ops generalizing s with
  | nil => rfl
  | cons op ops ih => rw [semRun, List.foldl_cons, ← semRun, ih, semStep_capacity]

theorem semStep_used_le (s : Sem) (op : SemOp) (h : s.used ≤ (s.capacity : Int)) :
    (semStep s op).used ≤ ((semStep s op).capacity : Int) := by
  rw [semStep_capacity]
  cases op with
  | acquire w id =>
    rcases waitAcquire_cases s w id with ⟨hc, hs⟩ | ⟨-, hs⟩ <;> rw [semStep, hs]
    · show s.used + 1 ≤ (s.capacity : Int)
      omega
    · exact h
  | cancel id =>
    rw [semStep, (cancelRemove_fields (cancelMark s id) id).2.1,
      (cancelMark_fields s id).2.1]
    exact h
  | cancelMarkOp id =>
    rw [semStep, (cancelMark_fields s id).2.1]
    exact h
  | cancelRemoveOp id =>
    rw [semStep, (cancelRemove_fields s id).2.1]
    exact h
  | releaseOp =>
    rcases (releaseGo_basic s.pq.length s).2.2.2.1 with ⟨-, hu⟩ | ⟨r, -, -, -, hu⟩ <;>
      (show (releaseGo s.pq.length s).used ≤ (s.capacity : Int)) <;> rw [hu] <;> omega

theorem semRun_used_le (cap : Nat) (ops : List SemOp) :
    (semRun (Sem.init cap) ops).used ≤ ((semRun (Sem.init cap) ops).capacity : Int) := by
  suffices h : ∀ (s : Sem) (ops : List SemOp), s.used ≤ (s.capacity : Int) →
      (semRun s ops).used ≤ ((semRun s ops).capacity : Int) by
    exact h (Sem.init cap) ops (by simp [Sem.init])
  intro s ops hs
  induction ops generalizing s with
  | nil => exact hs
  | cons op ops ih =>
    rw [semRun, List.foldl_cons, ← semRun]
    exact ih (semStep s op) (semStep_used_le s op hs)

theorem cancelMark_notGranted (s : Sem) (id cid : Nat)
    (h1 : ∀ r, r ∈ s.pq → r.id = id → r.state = RState.canceled) :
    ∀ r, r ∈ (cancelMark s cid).pq → r.id = id → r.state = RState.canceled := by
  unfold cancelMark
  split
  · intro r' hr' hid
    simp only [List.mem_map] at hr'
    obtain ⟨r, hr, hfr⟩ := hr'
    by_cases hcond : (r.id == cid && r.state == RState.waiting) = true
    · rw [if_pos hcond] at hfr
      rw [← hfr]
    · rw [if_neg hcond] at hfr
      rw [← hfr] at hid ⊢
      exact h1 r hr hid
  · exact h1

theorem semStep_notGranted (s : Sem) (id : Nat) (op : SemOp) (hheap : IsHeap s.pq)
    (h1 : ∀ r, r ∈ s.pq → r.id = id → r.state = RState.canceled)
    (h2 : ∀ g, g ∈ s.grants → g.id ≠ id)
    (hop : ∀ w, op ≠ SemOp.acquire w id) :
    (∀ r, r ∈ (semStep s op).pq → r.id = id → r.state = RState.canceled) ∧
    (∀ g, g ∈ (semStep s op).grants → g.id ≠ id) := by
  cases op with
  | acquire w aid =>
    have haid : aid ≠ id := by
      intro h
      exact hop w (by rw [h])
    rcases waitAcquire_cases s w aid with ⟨-, hs⟩ | ⟨-, hs⟩ <;> rw [semStep, hs]
    · exact ⟨h1, h2⟩
    · refine ⟨?_, h2⟩
      intro r hr hid
      have hmem : r ∈ (⟨w, aid, RState.waiting⟩ : Request) :: s.pq :=
        (heapPush_perm s.pq ⟨w, aid, .waiting⟩).1.mem_iff.mp hr
      rcases List.mem_cons.mp hmem with rfl | hmem2
      · exact absurd hid haid
      · exact h1 r hmem2 hid
  | cancel cid =>
    have hmark1 := cancelMark_notGranted s id cid h1
    have hmarkheap := cancelMark_isHeap s cid hheap
    have hg : (cancelMark s cid).grants = s.grants := (cancelMark_fields s cid).2.2.1
    constructor
    · intro r hr hid
      exact hmark1 r (cancelRemove_subset (cancelMark s cid) cid hmarkheap r hr) hid
    · intro g hg2
      rw [semStep, (cancelRemove_fields (cancelMark s cid) cid).2.2.1, hg] at hg2
      exact h2 g hg2
  | cancelMarkOp cid =>
    refine ⟨cancelMark_notGranted s id cid h1, ?_⟩
    intro g hg2
    rw [semStep, (cancelMark_fields s cid).2.2.1] at hg2
    exact h2 g hg2
  | cancelRemoveOp cid =>
    refine ⟨?_, ?_⟩
    · intro r hr hid
      exact h1 r (cancelRemove_subset s cid hheap r hr) hid
    · intro g hg2
      rw [semStep, (cancelRemove_fields s cid).2.2.1] at hg2
      exact h2 g hg2
  | releaseOp =>
    have hb := releaseGo_basic s.pq.length s
    constructor
    · intro r hr hid
      exact h1 r (hb.2.2.2.2 r hr) hid
    · intro g hg2
      rcases hb.2.2.2.1 with ⟨hgr, -⟩ | ⟨r, hrmem, hrw, hgr, -⟩
      · rw [semStep] at hg2
        unfold release at hg2
        rw [hgr] at hg2
        exact h2 g hg2
      · rw [semStep] at hg2
        unfold release at hg2
        rw [hgr] at hg2
        rcases List.mem_append.mp hg2 with hgl | hgr2
        · exact h2 g hgl
        · have : g = r := by simpa using hgr2
          subst this
          intro hgid
          have := h1 g hrmem hgid
          rw [this] at hrw
          exact absurd hrw (by simp)

theorem semRun_notGranted (s : Sem) (id : Nat) (ops : List SemOp) (hheap : IsHeap s.pq)
    (h1 : ∀ r, r ∈ s.pq → r.id = id → r.state = RState.canceled)
    (h2 : ∀ g, g ∈ s.grants → g.id ≠ id)
    (hop : ∀ w, SemOp.acquire w id ∉ ops) :
    ∀ g, g ∈ (semRun s ops).grants → g.id ≠ id := by
  induction ops generalizing s with
  | nil => exact h2
  | cons op ops ih =>
    rw [semRun, List.foldl_cons, ← semRun]
    have hopnot : ∀ w, op ≠ SemOp.acquire w id := by
      intro w h
      exact hop w (by rw [← h]; exact List.mem_cons_self _ _)
    have hstep := semStep_notGranted s id op hheap h1 h2 hopnot
    exact ih (semStep s op) (semStep_isHeap s op hheap) hstep.1 hstep.2
      (fun w hmem => hop w (List.mem_cons_of_mem _ hmem))

theorem cancelMark_establish (s : Sem) (id : Nat)
    (hex : ∃ r, r ∈ s.pq ∧ r.id = id ∧ r.state = RState.waiting)
    (hnoacq : ∀ r, r ∈ s.pq → r.id = id → r.state ≠ RState.acquired) :
    (cancelMark s id).canceledIds = s.canceledIds ++ [id] ∧
    (∀ r, r ∈ (cancelMark s id).pq → r.id = id → r.state = RState.canceled) := by
  obtain ⟨r0, hr0, hid0, hw0⟩ := hex
  have hany : (s.pq.any fun r => r.id == id && r.state == RState.waiting) = true := by
    rw [List.any_eq_true]
    exact ⟨r0, hr0, by simp [hid0, hw0]⟩
  unfold cancelMark
  rw [if_pos hany]
  refine ⟨rfl, ?_⟩
  intro r' hr' hid'
  simp only [List.mem_map] at hr'
  obtain ⟨r, hr, hfr⟩ := hr'
  by_cases hcond : (r.id == id && r.state == RState.waiting) = true
  · rw [if_pos hcond] at hfr
    rw [← hfr]
  · rw [if_neg hcond] at hfr
    rw [← hfr] at hid' ⊢
    have hnw : r.state ≠ RState.waiting := by
      intro hw
      exact hcond (by simp [hid', hw])
    have hna := hnoacq r hr hid'
    cases hstate : r.state with
    | waiting => exact absurd hstate hnw
    | acquired => exact absurd hstate hna
    | canceled => rfl

theorem release_grantsMax (s : Sem) (hheap : IsHeap s.pq)
    (hex : ∃ r, r ∈ s.pq ∧ r.state = RState.waiting) :
    ∃ r, r ∈ s.pq ∧ r.state = RState.waiting ∧
      (release s).grants = s.grants ++ [r] ∧
      (release s).used = s.used ∧
      IsHeap (release s).pq ∧
      (∀ r', r' ∈ s.pq → r'.state = RState.waiting → r'.weight ≤ r.weight) := by
  obtain ⟨r0, hr0, hw0⟩ := hex
  rcases releaseGo_heapSpec s.pq.length s hheap (le_refl _) with ⟨hall, -⟩ |
    ⟨r, d, hmem, hw, hd, hperm, hish, hg, hu, hmax⟩
  · exact absurd hw0 (hall r0 hr0)
  · exact ⟨r, hmem, hw, hg, hu, hish, hmax⟩

theorem release_race (s : Sem) (id : Nat) (r0 : Request) (hheap : IsHeap s.pq)
    (hgrant : (release s).grants = s.grants ++ [r0]) (hid : r0.id = id)
    (huniq : s.pq.countP (fun r => r.id == id) ≤ 1) :
    semStep (release s) (SemOp.cancel id) = release s ∧
    (release s).canceledIds = s.canceledIds := by
  have hbasic := releaseGo_basic s.pq.length s
  have hnone : ∀ x, x ∈ (release s).pq → ¬ (x.id == id) = true := by
    rcases releaseGo_heapSpec s.pq.length s hheap (le_refl _) with ⟨-, hpq, -, -⟩ |
      ⟨r, d, hmem, hw, hd, hperm, hish, hg, hu, hmax⟩
    · intro x hx
      show ¬ (x.id == id) = true
      have : (release s).pq = [] := hpq
      rw [this] at hx
      simp at hx
    · have hr0 : r = r0 := by
        have heq : s.grants ++ [r] = s.grants ++ [r0] := by
          rw [← hg]
          exact hgrant
        have := List.append_cancel_left heq
        simpa using this
      subst hr0
      have hcount := hperm.countP_eq (fun r => r.id == id)
      rw [List.countP_cons, List.countP_append] at hcount
      have hrid : (r.id == id) = true := by simp [hid]
      rw [hrid] at hcount
      simp only [if_true] at hcount
      intro x hx
      intro hxid
      have hxpos : 0 < (releaseGo s.pq.length s).pq.countP (fun r => r.id == id) :=
        List.countP_pos.mpr ⟨x, hx, hxid⟩
      omega
  have hmark : cancelMark (release s) id = release s := by
    unfold cancelMark
    rw [if_neg]
    intro hany
    rw [List.any_eq_true] at hany
    obtain ⟨x, hx, hcond⟩ := hany
    exact hnone x hx ((Bool.and_eq_true _ _).mp hcond).1
  have hremove : cancelRemove (release s) id = release s := by
    unfold cancelRemove
    have hfind : (release s).pq.findIdx? (fun r => r.id == id) = none := by
      rw [List.findIdx?_eq_none_iff]
      intro x hx
      exact Bool.eq_false_iff.mpr (hnone x hx)
    rw [hfind]
  constructor
  · show cancelRemove (cancelMark (release s) id) id = release s
    rw [hmark, hremove]
  · exact hbasic.2.2.1

theorem acquireAll (s : Sem) (ws : List (Int × Nat))
    (hfull : ¬ s.used < (s.capacity : Int)) :
    semRun s (ws.map fun p => SemOp.acquire p.1 p.2) =
      { s with pq := ws.foldl (fun l p => heapPush l ⟨p.1, p.2, RState.waiting⟩) s.pq } := by
  induction ws generalizing s with
  | nil => rfl
  | cons p ws ih =>
    have hstep : semStep s (SemOp.acquire p.1 p.2) =
        { s with pq := heapPush s.pq ⟨p.1, p.2, RState.waiting⟩ } := by
      rcases waitAcquire_cases s p.1 p.2 with ⟨hc, -⟩ | ⟨-, hs⟩
      · exact absurd hc hfull
      · exact hs
    have hsplit : semRun s ((p :: ws).map fun p => SemOp.acquire p.1 p.2) =
        semRun { s with pq := heapPush s.pq ⟨p.1, p.2, RState.waiting⟩ }
          (ws.map fun p => SemOp.acquire p.1 p.2) := by
      simp only [List.map_cons]
      rw [semRun, List.foldl_cons, ← semRun, hstep]
    rw [hsplit, ih { s with pq := heapPush s.pq ⟨p.1, p.2, RState.waiting⟩ } hfull]
    simp only [List.foldl_cons]

theorem pushAll_spec (l : List Request) (ws : List (Int × Nat)) (hheap : IsHeap l) :
    IsHeap (ws.foldl (fun l p => heapPush l ⟨p.1, p.2, RState.waiting⟩) l) ∧
    (ws.foldl (fun l p => heapPush l ⟨p.1, p.2, RState.waiting⟩) l).Perm
      ((ws.map fun p => (⟨p.1, p.2, RState.waiting⟩ : Request)) ++ l) := by
  induction ws generalizing l with
  | nil => exact ⟨hheap, by simp⟩
  | cons p ws ih =>
    have hpush := heapPush_perm l ⟨p.1, p.2, RState.waiting⟩
    have hih := ih (heapPush l ⟨p.1, p.2, RState.waiting⟩)
      (heapPush_isHeap l _ hheap)
    simp only [List.foldl_cons, List.map_cons, List.cons_append]
    refine ⟨hih.1, ?_⟩
    refine hih.2.trans ?_
    have h1 : ((ws.map fun p => (⟨p.1, p.2, RState.waiting⟩ : Request)) ++
        (⟨p.1, p.2, RState.waiting⟩ :: l)).Perm
        ((⟨p.1, p.2, RState.waiting⟩ : Request) ::
          ((ws.map fun p => (⟨p.1, p.2, RState.waiting⟩ : Request)) ++ l)) :=
      List.perm_middle
    exact (List.Perm.append_left _ hpush.1).trans h1

theorem releaseAll (s : Sem) (k : Nat) (hheap : IsHeap s.pq)
    (hall : ∀ r, r ∈ s.pq → r.state = RState.waiting) (hk : s.pq.length = k) :
    ∃ L, (semRun s (List.replicate k SemOp.releaseOp)).grants = s.grants ++ L ∧
      L.Perm s.pq ∧ L.Pairwise (fun a b => b.weight ≤ a.weight) := by
  induction k generalizing s with
  | zero =>
    refine ⟨[], by simp [semRun], ?_, by simp⟩
    rw [List.length_eq_zero.mp hk]
  | succ k ih =>
    have hne : s.pq ≠ [] := by
      intro h
      rw [h] at hk
      simp at hk
    rcases releaseGo_heapSpec s.pq.length s hheap (le_refl _) with ⟨hnall, -⟩ |
      ⟨r, dropped, hmem, hw, hd, hperm, hish, hg, hu, hmax⟩
    · obtain ⟨r0, hr0⟩ := List.exists_mem_of_ne_nil s.pq hne
      exact absurd (hall r0 hr0) (hnall r0 hr0)
    · have hdropped : dropped = [] := by
        cases hdc : dropped with
        | nil => rfl
        | cons d ds =>
          exfalso
          have hdmem : d ∈ s.pq := by
            apply hperm.mem_iff.mpr
            rw [hdc]
            simp
          exact hd d (by rw [hdc]; exact List.mem_cons_self _ _) (hall d hdmem)
      rw [hdropped] at hperm
      simp only [List.nil_append] at hperm
      have hperm2 : s.pq.Perm (r :: (release s).pq) := hperm
      have hg2 : (release s).grants = s.grants ++ [r] := hg
      have hish2 : IsHeap (release s).pq := hish
      have hsubset : ∀ x, x ∈ (release s).pq → x ∈ s.pq := by
        intro x hx
        exact hperm2.mem_iff.mpr (List.mem_cons_of_mem _ hx)
      have hlen : (release s).pq.length = k := by
        have := hperm2.length_eq
        simp at this
        omega
      have hallrel : ∀ x, x ∈ (release s).pq → x.state = RState.waiting :=
        fun x hx => hall x (hsubset x hx)
      have hih := ih (release s) hish2 hallrel hlen
      obtain ⟨L, hgL, hpermL, hpairL⟩ := hih
      refine ⟨r :: L, ?_, ?_, ?_⟩
      · show (semRun (semStep s SemOp.releaseOp) (List.replicate k SemOp.releaseOp)).grants
          = s.grants ++ (r :: L)
        rw [show semStep s SemOp.releaseOp = release s from rfl, hgL, hg2]
        simp
      · exact (hpermL.cons r).trans hperm2.symm
      · refine List.Pairwise.cons ?_ hpairL
        intro b hb
        have hbmem : b ∈ (release s).pq := hpermL.mem_iff.mp hb
        exact hmax b (hsubset b hbmem) (hallrel b hbmem)

/-- C2: the claim says that for a capacity-1 `Prioritized` semaphore with the
slot held, enqueueing waiters and releasing grants them in the stable
descending sort of the weights (equal weights FIFO by enqueue time).  The
queue is a Go `container/heap` binary heap ordered only by weight, which is
not a stable structure: with three equal-weight waiters enqueued in order
0, 1, 2, the grant order is 0, 2, 1, not the stable order 0, 1, 2. -/
theorem C2_counterexample :
    ((semRun (Sem.init 1) [.acquire 1 100, .acquire 5 0, .acquire 5 1, .acquire 5 2,
      .releaseOp, .releaseOp, .releaseOp]).grants.map Request.id = [0, 2, 1]) ∧
    ((sortDescByWeight [⟨5, 0, .waiting⟩, ⟨5, 1, .waiting⟩, ⟨5, 2, .waiting⟩]).map Request.id
      = [0, 1, 2]) ∧
    (semRun (Sem.init 1) [.acquire 1 100, .acquire 5 0, .acquire 5 1, .acquire 5 2,
      .releaseOp, .releaseOp, .releaseOp]).grants.map Request.id ≠
      (sortDescByWeight [⟨5, 0, .waiting⟩, ⟨5, 1, .waiting⟩,
        ⟨5, 2, .waiting⟩]).map Request.id := by
  decide

/-- C2 (amended): for a capacity-1 `Prioritized` semaphore whose slot is held,
after enqueueing `n` waiters and releasing `n` times, the grant log is a
permutation of the enqueued waiters in non-increasing weight order; equal
weights are granted in an order determined by the binary heap, which need not
be FIFO on enqueue time. -/
theorem C2_amended (hw : Int) (hid : Nat) (ws : List (Int × Nat)) :
    ∃ L : List Request,
      (semRun (Sem.init 1)
        ([SemOp.acquire hw hid] ++ (ws.map fun p => SemOp.acquire p.1 p.2) ++
          List.replicate ws.length SemOp.releaseOp)).grants = L ∧
      L.Perm (ws.map fun p => (⟨p.1, p.2, RState.waiting⟩ : Request)) ∧
      L.Pairwise (fun a b => b.weight ≤ a.weight) := by
  have hs1 : semRun (Sem.init 1) [SemOp.acquire hw hid] =
      ⟨1, 1, [], [], [hid], []⟩ := by
    show semStep (Sem.init 1) (SemOp.acquire hw hid) = _
    show waitAcquire (Sem.init 1) hw hid = _
    unfold waitAcquire Sem.init
    norm_num
  have hsplit1 : semRun (Sem.init 1)
      ([SemOp.acquire hw hid] ++ (ws.map fun p => SemOp.acquire p.1 p.2) ++
        List.replicate ws.length SemOp.releaseOp) =
      semRun (semRun (semRun (Sem.init 1) [SemOp.acquire hw hid])
        (ws.map fun p => SemOp.acquire p.1 p.2))
        (List.replicate ws.length SemOp.releaseOp) := by
    unfold semRun
    rw [List.foldl_append, List.foldl_append]
  rw [hsplit1, hs1]
  have hfull : ¬ (⟨1, 1, [], [], [hid], []⟩ : Sem).used <
      (((⟨1, 1, [], [], [hid], []⟩ : Sem).capacity : Nat) : Int) := by
    norm_num
  rw [acquireAll _ ws hfull]
  set pq2 : List Request :=
    ws.foldl (fun l p => heapPush l ⟨p.1, p.2, RState.waiting⟩) [] with hpq2
  have hempty : IsHeap ([] : List Request) := by
    intro c hcn hc
    simp at hcn
  have hpush := pushAll_spec [] ws hempty
  have hperm2 : pq2.Perm (ws.map fun p => (⟨p.1, p.2, RState.waiting⟩ : Request)) := by
    refine hpush.2.trans ?_
    simp
  have hallw : ∀ r, r ∈ pq2 → r.state = RState.waiting := by
    intro r hr
    have := hperm2.mem_iff.mp hr
    simp only [List.mem_map] at this
    obtain ⟨p, -, hp⟩ := this
    rw [← hp]
  have hlen2 : pq2.length = ws.length := by
    rw [hperm2.length_eq]
    simp
  obtain ⟨L, hgL, hLperm, hLpair⟩ :=
    releaseAll ⟨1, 1, pq2, [], [hid], []⟩ ws.length hpush.1 hallw hlen2
  refine ⟨L, ?_, hLperm.trans hperm2, hLpair⟩
  rw [hgL]
  simp

/-- C3: a `Prioritized` waiter canceled while still queued never acquires a
slot.  (1) A successful cancellation CAS records the cancellation cause for
the waiter and leaves every queue entry with its id in state `Canceled`;
(2) from such a state, no later operation ever grants that id;
(3) a release grants the slot to the highest-weight still-waiting
(non-canceled) waiter; (4) when a grant races with the waiter's cancellation
and the grant wins, the subsequent cancellation path is a no-op: the racing
waiter keeps the slot, completes normally, and the slot was handed over
exactly once. -/
theorem C3_canceled_waiter :
    (∀ (s : Sem) (id : Nat),
      (∃ r, r ∈ s.pq ∧ r.id = id ∧ r.state = RState.waiting) →
      (∀ r, r ∈ s.pq → r.id = id → r.state ≠ RState.acquired) →
      (cancelMark s id).canceledIds = s.canceledIds ++ [id] ∧
      (∀ r, r ∈ (cancelMark s id).pq → r.id = id → r.state = RState.canceled)) ∧
    (∀ (s : Sem) (id : Nat) (ops : List SemOp),
      IsHeap s.pq →
      (∀ r, r ∈ s.pq → r.id = id → r.state = RState.canceled) →
      (∀ g, g ∈ s.grants → g.id ≠ id) →
      (∀ w, SemOp.acquire w id ∉ ops) →
      ∀ g, g ∈ (semRun s ops).grants → g.id ≠ id) ∧
    (∀ s : Sem, IsHeap s.pq →
      (∃ r, r ∈ s.pq ∧ r.state = RState.waiting) →
      ∃ r, r ∈ s.pq ∧ r.state = RState.waiting ∧
        (release s).grants = s.grants ++ [r] ∧
        (release s).used = s.used ∧
        (∀ r', r' ∈ s.pq → r'.state = RState.waiting → r'.weight ≤ r.weight)) ∧
    (∀ (s : Sem) (id : Nat) (r0 : Request), IsHeap s.pq →
      (release s).grants = s.grants ++ [r0] → r0.id = id →
      s.pq.countP (fun r => r.id == id) ≤ 1 →
      semStep (release s) (SemOp.cancel id) = release s ∧
      (release s).canceledIds = s.canceledIds) := by
  refine ⟨cancelMark_establish, semRun_notGranted, ?_, release_race⟩
  intro s hheap hex
  obtain ⟨r, h1, h2, h3, h4, -, h6⟩ := release_grantsMax s hheap hex
  exact ⟨r, h1, h2, h3, h4, h6⟩

/-- Witness for C3 at the `SkipCanceledRequest` scenario: capacity 1, slot
held, waiters of weights 20, 10, 1 (ids 2, 1, 3).  Canceling id 1 marks it,
the next release grants the highest-weight non-canceled waiter, no grant ever
goes to id 1, and a release that granted id 2 makes a subsequent cancellation
of id 2 a no-op. -/
theorem C3_canceled_waiter_witness :
    ((cancelMark skipTestSem 1).canceledIds = [] ++ [1] ∧
      (∀ r, r ∈ (cancelMark skipTestSem 1).pq → r.id = 1 →
        r.state = RState.canceled)) ∧
    (∀ g, g ∈ (semRun (cancelMark skipTestSem 1)
      [SemOp.releaseOp, SemOp.releaseOp]).grants → g.id ≠ 1) ∧
    (∃ r, r ∈ (cancelMark skipTestSem 1).pq ∧ r.state = RState.waiting ∧
      (release (cancelMark skipTestSem 1)).grants =
        (cancelMark skipTestSem 1).grants ++ [r] ∧
      (release (cancelMark skipTestSem 1)).used = (cancelMark skipTestSem 1).used ∧
      (∀ r', r' ∈ (cancelMark skipTestSem 1).pq → r'.state = RState.waiting →
        r'.weight ≤ r.weight)) ∧
    (semStep (release skipTestSem) (SemOp.cancel 2) = release skipTestSem ∧
      (release skipTestSem).canceledIds = skipTestSem.canceledIds) := by
  refine ⟨?_, ?_, ?_, ?_⟩
  · exact C3_canceled_waiter.1 skipTestSem 1
      ⟨⟨10, 1, .waiting⟩, by decide, by decide, by decide⟩ (by decide)
  · exact C3_canceled_waiter.2.1 (cancelMark skipTestSem 1) 1
      [SemOp.releaseOp, SemOp.releaseOp] (by decide) (by decide) (by decide)
      (by intro w hmem; simp at hmem)
  · exact C3_canceled_waiter.2.2.1 (cancelMark skipTestSem 1) (by decide)
      ⟨⟨20, 2, .waiting⟩, by decide, by decide⟩
  · exact C3_canceled_waiter.2.2.2 skipTestSem 2 ⟨20, 2, .waiting⟩ (by decide)
      (by decide) (by decide) (by decide)

/-- C10: for every operation sequence on a `Prioritized` semaphore of capacity
N, the `used` counter (granted-but-unreleased slots) never exceeds N;
`WaitAcquire` grants immediately (incrementing `used` and logging a fast
grant) exactly when `used < capacity`; and `privateRelease` either hands the
slot to exactly one still-waiting request leaving `used` unchanged, or
decrements `used` leaving the grant log unchanged — never both. -/
theorem C10_capacity_invariant :
    (∀ (cap : Nat) (ops : List SemOp),
      (semRun (Sem.init cap) ops).used ≤ (cap : Int)) ∧
    (∀ (s : Sem) (w : Int) (id : Nat),
      ((waitAcquire s w id).used = s.used + 1 ∧
        (waitAcquire s w id).fastGrants = s.fastGrants ++ [id]) ↔
      s.used < (s.capacity : Int)) ∧
    (∀ s : Sem,
      ((release s).grants = s.grants ∧ (release s).used = s.used - 1) ∨
      (∃ r, r ∈ s.pq ∧ r.state = RState.waiting ∧
        (release s).grants = s.grants ++ [r] ∧ (release s).used = s.used)) := by
  refine ⟨?_, ?_, ?_⟩
  · intro cap ops
    have h := semRun_used_le cap ops
    rw [semRun_capacity] at h
    exact h
  · intro s w id
    constructor
    · rintro ⟨hu, -⟩
      rcases waitAcquire_cases s w id with ⟨hc, -⟩ | ⟨hc, hs⟩
      · exact hc
      · rw [hs] at hu
        exfalso
        have : s.used = s.used + 1 := hu
        omega
    · intro hc
      rcases waitAcquire_cases s w id with ⟨-, hs⟩ | ⟨hnc, -⟩
      · rw [hs]
        exact ⟨rfl, rfl⟩
      · exact absurd hc hnc
  · intro s
    rcases (releaseGo_basic s.pq.length s).2.2.2.1 with ⟨hg, hu⟩ | ⟨r, hm, hw, hg, hu⟩
    · exact Or.inl ⟨hg, hu⟩
    · exact Or.inr ⟨r, hm, hw, hg, hu⟩

end Siso.Semaphore

namespace Siso.Retry

theorem retriableError_state (b : ExponentialBackoff) (e : GError) :
    (retriableError b e).2.retries = b.retries ∧
    (retriableError b e).2.delay = b.delay := by
  unfold retriableError
  cases e.code <;> exact ⟨rfl, rfl⟩

theorem nextStart_delay (b : ExponentialBackoff) :
    (nextStart b).delay = (if b.delay = 0 then baseDelay else b.delay) ∧
    (nextStart b).retries = b.retries := by
  unfold nextStart
  split <;> simp_all

theorem nextComputedDelay_ge_base (delay : Int) (u : ℚ) :
    baseDelay ≤ nextComputedDelay delay u := by
  unfold nextComputedDelay
  dsimp only
  split <;> omega

theorem nextComputedDelay_bounds (delay : Int) (u : ℚ) (hd : baseDelay ≤ delay)
    (hu0 : 0 ≤ u) (hu1 : u ≤ 1) :
    baseDelay ≤ nextComputedDelay delay u ∧
    ((nextComputedDelay delay u : Int) : ℚ) ≤ min ((delay : ℚ) * multiplier) maxDelay ∧
    min ((delay : ℚ) * multiplier) maxDelay * (1 - backoffRange) - 1 ≤
      ((nextComputedDelay delay u : Int) : ℚ) := by
  unfold nextComputedDelay
  dsimp only
  have hdq : ((baseDelay : Int) : ℚ) ≤ (delay : ℚ) := by exact_mod_cast hd
  have hbq : (0 : ℚ) < ((baseDelay : Int) : ℚ) := by norm_num [baseDelay]
  have hmin : (if maxDelay < (delay : ℚ) * multiplier then maxDelay
      else (delay : ℚ) * multiplier) = min ((delay : ℚ) * multiplier) maxDelay := by
    split
    · next h => rw [min_eq_right (le_of_lt h)]
    · next h => rw [min_eq_left (le_of_not_lt h)]
  rw [hmin]
  set bk2 : ℚ := min ((delay : ℚ) * multiplier) maxDelay with hbk2
  have hbase2 : ((baseDelay : Int) : ℚ) ≤ bk2 := by
    rw [hbk2]
    apply le_min
    · unfold multiplier
      nlinarith
    · unfold baseDelay maxDelay
      norm_num
  have h2pos : (0 : ℚ) ≤ bk2 := le_trans (le_of_lt hbq) hbase2
  set bk3 : ℚ := bk2 - bk2 * backoffRange * u with hbk3
  have h3le : bk3 ≤ bk2 := by
    rw [hbk3]
    have : 0 ≤ bk2 * backoffRange * u := by
      unfold backoffRange
      nlinarith
    linarith
  have h3ge : bk2 * (1 - backoffRange) ≤ bk3 := by
    rw [hbk3]
    unfold backoffRange
    nlinarith
  have hfl : ((⌊bk3⌋ : Int) : ℚ) ≤ bk3 := Int.floor_le bk3
  have hfg : bk3 - 1 < ((⌊bk3⌋ : Int) : ℚ) := Int.sub_one_lt_floor bk3
  refine ⟨?_, ?_, ?_⟩
  · split <;> omega
  · split
    · next hlt => exact hbase2
    · next hge => linarith
  · split
    · next hlt =>
      have hcast : ((⌊bk3⌋ : Int) : ℚ) < ((baseDelay : Int) : ℚ) := by exact_mod_cast hlt
      linarith
    · next hge => linarith

theorem nextDelay_retry_eq (b : ExponentialBackoff) (e : GError) (u : ℚ)
    (h1 : (retriableError (nextStart b) e).1 = true)
    (h2 : b.retries < maxRetries) :
    nextDelay b (some e) u =
      (nextComputedDelay (nextStart b).delay u, .retry,
        { (retriableError (nextStart b) e).2 with
            retries := (retriableError (nextStart b) e).2.retries + 1,
            delay := nextComputedDelay (nextStart b).delay u }) := by
  have hr := retriableError_state (nextStart b) e
  have hs := nextStart_delay b
  unfold nextDelay
  dsimp only
  rw [if_neg (by rw [h1]; simp)]
  rw [if_neg (by rw [hr.1, hs.2]; omega)]
  rw [hr.2]

theorem nextDelay_exhausted_eq (b : ExponentialBackoff) (e : GError) (u : ℚ)
    (h1 : (retriableError (nextStart b) e).1 = true)
    (h2 : maxRetries ≤ b.retries) :
    (nextDelay b (some e) u).1 = 0 ∧
    (nextDelay b (some e) u).2.1 = NextOutcome.exhausted := by
  have hr := retriableError_state (nextStart b) e
  have hs := nextStart_delay b
  unfold nextDelay
  dsimp only
  rw [if_neg (by rw [h1]; simp)]
  rw [if_pos (by rw [hr.1, hs.2]; omega)]
  exact ⟨rfl, rfl⟩

theorem nextDelay_retry_branches (b : ExponentialBackoff) (e : GError) (u : ℚ)
    (h : (nextDelay b (some e) u).2.1 = NextOutcome.retry) :
    (retriableError (nextStart b) e).1 = true ∧ b.retries < maxRetries := by
  have hr := retriableError_state (nextStart b) e
  have hs := nextStart_delay b
  by_cases h1 : (retriableError (nextStart b) e).1 = false
  · exfalso
    unfold nextDelay at h
    dsimp only at h
    rw [if_pos h1] at h
    exact absurd h (by simp)
  · have h1' : (retriableError (nextStart b) e).1 = true := by
      cases hb : (retriableError (nextStart b) e).1
      · exact absurd hb h1
      · rfl
    refine ⟨h1', ?_⟩
    by_contra hge
    unfold nextDelay at h
    dsimp only at h
    rw [if_neg (by rw [h1']; simp)] at h
    rw [if_pos (by rw [hr.1, hs.2]; omega)] at h
    exact absurd h (by simp)

/-- C4: the claim says the first delay is 200 ms and the returned delay is
jittered within ±40 % of the nominal value, and that only the five retryable
codes get a delay.  In the code the first nominal delay is already
`2 × 200 ms = 400 ms` (`b.delay` is set to the base before doubling), the
jitter only subtracts (up to 40 %), and `Unauthenticated` also receives a
retry delay on its first occurrence: with zero jitter the first call returns
400 ms, outside `[120 ms, 280 ms]`, the ±40 % band around 200 ms. -/
theorem C4_counterexample :
    (nextDelay ExponentialBackoff.initial (some ⟨Code.unavailable, true⟩) 0).1
      = 400000000 ∧
    ¬ ((120000000 : Int) ≤
        (nextDelay ExponentialBackoff.initial (some ⟨Code.unavailable, true⟩) 0).1 ∧
      (nextDelay ExponentialBackoff.initial (some ⟨Code.unavailable, true⟩) 0).1
        ≤ 280000000) ∧
    (nextDelay ExponentialBackoff.initial (some ⟨Code.unauthenticated, true⟩) 0).2.1
      = NextOutcome.retry ∧
    0 < (nextDelay ExponentialBackoff.initial (some ⟨Code.unauthenticated, true⟩) 0).1 := by
  have h1 : nextDelay ExponentialBackoff.initial (some ⟨Code.unavailable, true⟩) 0 =
      (400000000, .retry, ⟨true, 1, 400000000, false⟩) := by
    norm_num [nextDelay, nextStart, nextComputedDelay, retriableError,
      ExponentialBackoff.initial, baseDelay, maxDelay, multiplier, backoffRange, maxRetries]
  have h2 : nextDelay ExponentialBackoff.initial (some ⟨Code.unauthenticated, true⟩) 0 =
      (400000000, .retry, ⟨true, 1, 400000000, true⟩) := by
    norm_num [nextDelay, nextStart, nextComputedDelay, retriableError,
      ExponentialBackoff.initial, baseDelay, maxDelay, multiplier, backoffRange, maxRetries]
  rw [h1, h2]
  norm_num

/-- C4 (amended): `retriableError` accepts exactly the codes Aborted,
Internal, ResourceExhausted, Unavailable, Unknown-from-a-gRPC-status, and —
at most once per backoff — Unauthenticated and PermissionDenied.  On a retry,
the nominal delay is the stored delay (200 ms base on the first call) times 2
capped at 10 s, and the returned delay is the nominal reduced by 0 – 40 %
(jitter only subtracts), truncated, and clamped below at 200 ms.  After 10
retries `Next` stops retrying and returns an error. -/
theorem C4_amended :
    (∀ (b : ExponentialBackoff) (e : GError),
      (retriableError b e).1 = true ↔
        (e.code = Code.aborted ∨ e.code = Code.internal ∨
         e.code = Code.resourceExhausted ∨ e.code = Code.unavailable ∨
         (e.code = Code.unknown ∧ e.isStatus = true) ∨
         ((e.code = Code.unauthenticated ∨ e.code = Code.permissionDenied) ∧
           b.authRetry = false))) ∧
    (∀ (b : ExponentialBackoff) (e : GError) (u : ℚ),
      0 ≤ u → u ≤ 1 → (b.delay = 0 ∨ baseDelay ≤ b.delay) →
      (nextDelay b (some e) u).2.1 = NextOutcome.retry →
      baseDelay ≤ (nextDelay b (some e) u).1 ∧
      (((nextDelay b (some e) u).1 : Int) : ℚ) ≤
        min ((((if b.delay = 0 then baseDelay else b.delay) : Int) : ℚ) * multiplier)
          maxDelay ∧
      min ((((if b.delay = 0 then baseDelay else b.delay) : Int) : ℚ) * multiplier)
          maxDelay * (1 - backoffRange) - 1 ≤
        (((nextDelay b (some e) u).1 : Int) : ℚ)) ∧
    (∀ (b : ExponentialBackoff) (e : GError) (u : ℚ),
      (retriableError (nextStart b) e).1 = true → maxRetries ≤ b.retries →
      (nextDelay b (some e) u).1 = 0 ∧
      (nextDelay b (some e) u).2.1 = NextOutcome.exhausted) := by
  refine ⟨?_, ?_, fun b e u h1 h2 => nextDelay_exhausted_eq b e u h1 h2⟩
  · intro b e
    unfold retriableError
    cases hc : e.code <;> cases hb : b.authRetry <;> cases hs : e.isStatus <;> simp
  · intro b e u hu0 hu1 hdel hretry
    obtain ⟨h1, h2⟩ := nextDelay_retry_branches b e u hretry
    rw [nextDelay_retry_eq b e u h1 h2]
    dsimp only
    have hsd := (nextStart_delay b).1
    have hd' : baseDelay ≤ (if b.delay = 0 then baseDelay else b.delay : Int) := by
      rcases hdel with h | h
      · rw [if_pos h]
      · rw [if_neg (by have := h; unfold baseDelay at this; omega)]
        exact h
    rw [hsd]
    exact nextComputedDelay_bounds _ u hd' hu0 hu1

/-- Witness for C4 (amended): a first retry for Unavailable with mid-range
jitter satisfies the delay bounds, and a backoff that already did 10 retries
stops with an error. -/
theorem C4_amended_witness :
    (baseDelay ≤
      (nextDelay ExponentialBackoff.initial (some ⟨Code.unavailable, true⟩) (1/2)).1 ∧
      (((nextDelay ExponentialBackoff.initial (some ⟨Code.unavailable, true⟩) (1/2)).1
          : Int) : ℚ) ≤
        min ((((if ExponentialBackoff.initial.delay = 0 then baseDelay
          else ExponentialBackoff.initial.delay) : Int) : ℚ) * multiplier) maxDelay ∧
      min ((((if ExponentialBackoff.initial.delay = 0 then baseDelay
          else ExponentialBackoff.initial.delay) : Int) : ℚ) * multiplier) maxDelay *
          (1 - backoffRange) - 1 ≤
        (((nextDelay ExponentialBackoff.initial (some ⟨Code.unavailable, true⟩) (1/2)).1
          : Int) : ℚ)) ∧
    ((nextDelay ⟨true, 10, 400000000, false⟩ (some ⟨Code.unavailable, true⟩) 0).1 = 0 ∧
      (nextDelay ⟨true, 10, 400000000, false⟩ (some ⟨Code.unavailable, true⟩) 0).2.1
        = NextOutcome.exhausted) := by
  constructor
  · exact C4_amended.2.1 ExponentialBackoff.initial ⟨Code.unavailable, true⟩ (1/2)
      (by norm_num) (by norm_num) (Or.inl rfl)
      (by norm_num [nextDelay, nextStart, nextComputedDelay, retriableError,
        ExponentialBackoff.initial, baseDelay, maxDelay, multiplier, backoffRange,
        maxRetries])
  · exact C4_amended.2.2 ⟨true, 10, 400000000, false⟩ ⟨Code.unavailable, true⟩ 0
      (by norm_num [retriableError, nextStart, baseDelay]) (by norm_num [maxRetries])

/-- C5: when the wrapped function always fails with an authentication error
(Unauthenticated or PermissionDenied gRPC status), `retry.Do` retries it at
most once: the function is invoked exactly twice and the auth error is
returned to the caller (`Next` allows the auth retry only while `authRetry`
is unset). -/
theorem C5_auth_error_two_calls (c : Code)
    (hc : c = Code.unauthenticated ∨ c = Code.permissionDenied)
    (us : Nat → ℚ) (fuel : Nat) (hfuel : 2 ≤ fuel) :
    doSim (fun _ => some ⟨c, true⟩) us fuel ExponentialBackoff.initial 0 =
      (2, NextOutcome.noRetry) := by
  obtain ⟨f, rfl⟩ : ∃ f, fuel = f + 2 := ⟨fuel - 2, by omega⟩
  have h1 : ∀ u : ℚ, nextDelay ExponentialBackoff.initial (some ⟨c, true⟩) u =
      (nextComputedDelay baseDelay u, .retry,
        ⟨true, 1, nextComputedDelay baseDelay u, true⟩) := by
    intro u
    rcases hc with rfl | rfl <;>
      simp [nextDelay, nextStart, retriableError, ExponentialBackoff.initial, maxRetries]
  have hdpos : ∀ u : ℚ, nextComputedDelay baseDelay u ≠ 0 := by
    intro u
    have := nextComputedDelay_ge_base baseDelay u
    unfold baseDelay at this ⊢
    omega
  have h2 : ∀ (d : Int) (u : ℚ), d ≠ 0 →
      nextDelay ⟨true, 1, d, true⟩ (some ⟨c, true⟩) u = (0, .noRetry, ⟨true, 1, d, true⟩) := by
    intro d u hd
    rcases hc with rfl | rfl <;>
      simp [nextDelay, nextStart, retriableError, hd]
  have hstep1 : doSim (fun _ => some ⟨c, true⟩) us (f + 2) ExponentialBackoff.initial 0 =
      doSim (fun _ => some ⟨c, true⟩) us (f + 1)
        ⟨true, 1, nextComputedDelay baseDelay (us 0), true⟩ 1 := by
    rw [show f + 2 = (f + 1) + 1 from rfl, doSim]
    rw [h1 (us 0)]
    simp [hdpos (us 0)]
  rw [hstep1, doSim, h2 (nextComputedDelay baseDelay (us 0)) (us 1) (hdpos (us 0))]
  simp

/-- Witness for C5: with zero jitter, the always-PermissionDenied function is
called exactly twice. -/
theorem C5_auth_error_two_calls_witness :
    (Code.permissionDenied = Code.unauthenticated ∨
      Code.permissionDenied = Code.permissionDenied) ∧ 2 ≤ 2 ∧
    doSim (fun _ => some ⟨Code.permissionDenied, true⟩) (fun _ => 0) 2
      ExponentialBackoff.initial 0 = (2, NextOutcome.noRetry) :=
  ⟨Or.inr rfl, by omega,
    C5_auth_error_two_calls Code.permissionDenied (Or.inr rfl) (fun _ => 0) 2 (by omega)⟩

end Siso.Retry

namespace Siso.BuildCache

/-- C6: the claim says that after an ActionCache hit, a failing sub-fetch
makes `Cache.GetActionResult` return a `NotFound` error rather than the
underlying failure.  In the code every sub-fetch failure is returned to the
caller unchanged: with a cache hit whose stdout is digest-referenced and
whose content fetch fails with a non-NotFound error, `GetActionResult`
returns that error, not `NotFound`. -/
theorem C6_counterexample :
    GetActionResult ⟨true, true, .ok (), .ok ⟨0, 5, 0, 0⟩,
        .error (.failure "unavailable"), .ok (), .ok ()⟩ =
      .error (.failure "unavailable") ∧
    isNotFoundResult (GetActionResult ⟨true, true, .ok (), .ok ⟨0, 5, 0, 0⟩,
        .error (.failure "unavailable"), .ok (), .ok ()⟩) = false := by
  constructor <;> rfl

/-- C6 (amended): after an ActionCache hit, `Cache.GetActionResult` returns
any sub-fetch failure (stdout fetch, stderr fetch, or recording the outputs)
to the caller unchanged; `GetActionResult` itself produces `NotFound` only
when the cache is not configured or reads are disabled.  (Any non-nil error
makes the step fall through to execution.) -/
theorem C6_amended (env : CacheEnv) (result : ActionResultData) (e : CErr)
    (hc : env.configured = true) (hr : env.enableRead = true)
    (hd : env.digestResult = .ok ()) (ha : env.actionResult = .ok result) :
    (setActionResultStdout env result = .error e →
      GetActionResult env = .error e) ∧
    (setActionResultStdout env result = .ok () →
      setActionResultStderr env result = .error e →
      GetActionResult env = .error e) ∧
    (setActionResultStdout env result = .ok () →
      setActionResultStderr env result = .ok () →
      GetActionResult env = env.recordOutputs) := by
  unfold GetActionResult
  rw [hc, hr, hd, ha]
  simp only [Bool.true_eq_false, if_false]
  refine ⟨?_, ?_, ?_⟩
  · intro h1
    rw [h1]
  · intro h1 h2
    rw [h1, h2]
  · intro h1 h2
    rw [h1, h2]

/-- Witness for C6 (amended) at a concrete environment whose stdout content
fetch fails. -/
theorem C6_amended_witness :
    ((⟨true, true, .ok (), .ok ⟨0, 5, 0, 0⟩, .error (.failure "boom"), .ok (),
        .ok ()⟩ : CacheEnv).configured = true ∧
      (⟨true, true, .ok (), .ok ⟨0, 5, 0, 0⟩, .error (.failure "boom"), .ok (),
        .ok ()⟩ : CacheEnv).enableRead = true ∧
      setActionResultStdout
        ⟨true, true, .ok (), .ok ⟨0, 5, 0, 0⟩, .error (.failure "boom"), .ok (), .ok ()⟩
        ⟨0, 5, 0, 0⟩ = .error (.failure "boom")) ∧
    GetActionResult ⟨true, true, .ok (), .ok ⟨0, 5, 0, 0⟩, .error (.failure "boom"),
      .ok (), .ok ()⟩ = .error (.failure "boom") := by
  refine ⟨⟨rfl, rfl, rfl⟩, ?_⟩
  exact (C6_amended ⟨true, true, .ok (), .ok ⟨0, 5, 0, 0⟩, .error (.failure "boom"),
    .ok (), .ok ()⟩ ⟨0, 5, 0, 0⟩ (.failure "boom") rfl rfl rfl rfl).1 rfl

end Siso.BuildCache

namespace Siso.Scandeps

theorem mapLookup_cons (a : String × Nat) (m : List (String × Nat)) (q : String) :
    mapLookup (a :: m) q = if a.1 = q then some a.2 else mapLookup m q := by
  by_cases hpq : a.1 = q
  · simp [mapLookup, List.find?_cons_of_pos, hpq]
  · simp [mapLookup, List.find?_cons_of_neg, hpq]

theorem tableInv_init : TableInv NewPathTable := by
  intro p i
  simp [NewPathTable, mapLookup]

theorem getIndex_spec (pt : PathTable) (p : String) (h : TableInv pt) :
    TableInv (GetIndex pt p).2 ∧
    mapLookup (GetIndex pt p).2.pathToIdx p = some (GetIndex pt p).1 ∧
    (∀ q j, mapLookup pt.pathToIdx q = some j →
      mapLookup (GetIndex pt p).2.pathToIdx q = some j) := by
  unfold GetIndex
  cases hm : mapLookup pt.pathToIdx p with
  | some idx =>
    exact ⟨h, hm, fun q j hq => hq⟩
  | none =>
    dsimp only
    refine ⟨?_, ?_, ?_⟩
    · intro q i
      rw [mapLookup_cons]
      by_cases hq : p = q
      · subst hq
        simp only [if_pos rfl]
        constructor
        · intro hi
          have : i = pt.idxToPath.length := by
            exact (Option.some.injEq _ _).mp hi.symm
          subst this
          simp
        · intro hi
          rcases Nat.lt_trichotomy i pt.idxToPath.length with hlt | heq | hgt
          · rw [List.getElem?_append_left hlt] at hi
            have := (h p i).mpr hi
            rw [hm] at this
            cases this
          · subst heq
            rfl
          · rw [List.getElem?_append_right (Nat.le_of_lt hgt)] at hi
            have h1 : i - pt.idxToPath.length ≠ 0 := Nat.sub_ne_zero_of_lt hgt
            rw [List.getElem?_eq_none (by simpa using Nat.one_le_iff_ne_zero.mpr h1)] at hi
            cases hi
      · simp only [if_neg hq]
        rw [h q i]
        constructor
        · intro hi
          have hlt : i < pt.idxToPath.length := by
            have := List.getElem?_eq_some_iff.mp hi
            exact this.1
          rw [List.getElem?_append_left hlt]
          exact hi
        · intro hi
          rcases Nat.lt_or_ge i pt.idxToPath.length with hlt | hge
          · rw [List.getElem?_append_left hlt] at hi
            exact hi
          · rw [List.getElem?_append_right hge] at hi
            rcases Nat.lt_or_ge (i - pt.idxToPath.length) 1 with h1 | h1
            · have h0 : i - pt.idxToPath.length = 0 := by omega
              rw [h0] at hi
              simp at hi
              exact absurd hi hq
            · rw [List.getElem?_eq_none (by simpa using h1)] at hi
              cases hi
    · rw [mapLookup_cons]
      simp
    · intro q j hq
      rw [mapLookup_cons]
      by_cases hpq : p = q
      · subst hpq
        rw [hm] at hq
        cases hq
      · rw [if_neg hpq]
        exact hq

theorem getIndex_of_found (pt : PathTable) (p : String) (i : Nat)
    (h : mapLookup pt.pathToIdx p = some i) : GetIndex pt p = (i, pt) := by
  unfold GetIndex
  rw [h]

theorem internList_inv_aux (ps : List String) (pt : PathTable) (h : TableInv pt) :
    TableInv (ps.foldl (fun pt p => (GetIndex pt p).2) pt) := by
  induction ps generalizing pt with
  | nil => exact h
  | cons p ps ih =>
    simp only [List.foldl_cons]
    exact ih _ (getIndex_spec pt p h).1

theorem internList_inv (ps : List String) : TableInv (internList ps) :=
  internList_inv_aux ps NewPathTable tableInv_init

theorem getIndex_getElem (pt : PathTable) (p : String) (h : TableInv pt) :
    (GetIndex pt p).2.idxToPath[(GetIndex pt p).1]? = some p :=
  ((getIndex_spec pt p h).1 p _).mp (getIndex_spec pt p h).2.1

theorem getPath_error_iff (pt : PathTable) (i : Int) :
    (∃ msg, GetPath pt i = .error msg) ↔
      (i < 0 ∨ (pt.idxToPath.length : Int) ≤ i) := by
  unfold GetPath
  split
  · exact ⟨fun _ => by assumption, fun _ => ⟨_, rfl⟩⟩
  · constructor
    · rintro ⟨msg, hmsg⟩
      cases hmsg
    · intro hc
      exact absurd hc (by assumption)

/-- C9: PathTable interning is a bijection between interned paths and ids:
interning an already-interned path returns the same id without changing the
table; interning two distinct paths in sequence yields distinct ids; after
interning any path p (including the empty string), GetPath of its id returns
p; and GetPath errors exactly on the ids (negative or not) to which no path
has been assigned. -/
theorem C9_pathTable_bijection (ps : List String) :
    (∀ p, (GetIndex (GetIndex (internList ps) p).2 p).1
        = (GetIndex (internList ps) p).1) ∧
    (∀ p q, p ≠ q →
      (GetIndex (GetIndex (internList ps) p).2 q).1
        ≠ (GetIndex (internList ps) p).1) ∧
    (∀ p, GetPath (GetIndex (internList ps) p).2
        ((GetIndex (internList ps) p).1 : Int) = .ok p) ∧
    (∀ i : Int, (∃ msg, GetPath (internList ps) i = .error msg) ↔
      ¬ ∃ p j, mapLookup (internList ps).pathToIdx p = some j ∧ (j : Int) = i) := by
  have hinv := internList_inv ps
  refine ⟨?_, ?_, ?_, ?_⟩
  · intro p
    have hspec := getIndex_spec (internList ps) p hinv
    rw [getIndex_of_found _ p _ hspec.2.1]
  · intro p q hpq
    have hspec1 := getIndex_spec (internList ps) p hinv
    have hspec2 := getIndex_spec (GetIndex (internList ps) p).2 q hspec1.1
    intro heq
    have hp2 : mapLookup (GetIndex (GetIndex (internList ps) p).2 q).2.pathToIdx p
        = some (GetIndex (internList ps) p).1 :=
      hspec2.2.2 p _ hspec1.2.1
    have hq2 := hspec2.2.1
    rw [heq] at hq2
    have h1 := (hspec2.1 p _).mp hp2
    have h2 := (hspec2.1 q _).mp hq2
    rw [h1] at h2
    exact hpq (Option.some.injEq _ _ |>.mp h2)
  · intro p
    have hget := getIndex_getElem (internList ps) p hinv
    have hlt : (GetIndex (internList ps) p).1
        < (GetIndex (internList ps) p).2.idxToPath.length :=
      (List.getElem?_eq_some_iff.mp hget).1
    unfold GetPath
    rw [if_neg]
    · congr 1
      rw [List.getD_eq_getElem?_getD, Int.toNat_natCast, hget]
      rfl
    · push_neg
      constructor
      · exact Int.natCast_nonneg _
      · exact_mod_cast hlt
  · intro i
    rw [getPath_error_iff]
    constructor
    · rintro hrange ⟨p, j, hl, hj⟩
      have hjlt : j < (internList ps).idxToPath.length :=
        (List.getElem?_eq_some_iff.mp ((hinv p j).mp hl)).1
      subst hj
      rcases hrange with hneg | hbig
      · exact absurd hneg (by omega)
      · have : (j : Int) < ((internList ps).idxToPath.length : Int) := by
          exact_mod_cast hjlt
        omega
    · intro hne
      by_contra hrange
      push_neg at hrange
      obtain ⟨h0, hlen⟩ := hrange
      have hlt : i.toNat < (internList ps).idxToPath.length := by
        omega
      have hsome : ∃ p, (internList ps).idxToPath[i.toNat]? = some p :=
        ⟨(internList ps).idxToPath.get ⟨i.toNat, hlt⟩,
          List.getElem?_eq_some_iff.mpr ⟨hlt, rfl⟩⟩
      obtain ⟨p, hp⟩ := hsome
      exact hne ⟨p, i.toNat, (hinv p i.toNat).mpr hp, by omega⟩

/-- Witness for C9 at a concrete table interning "a" and "b", then "". -/
theorem C9_pathTable_bijection_witness :
    GetPath (GetIndex (internList ["a", "b"]) "").2
        ((GetIndex (internList ["a", "b"]) "").1 : Int) = .ok "" ∧
    ("" : String) ≠ "a" ∧
    (GetIndex (GetIndex (internList ["a", "b"]) "").2 "a").1
      ≠ (GetIndex (internList ["a", "b"]) "").1 := by
  have h := C9_pathTable_bijection ["a", "b"]
  exact ⟨h.2.2.1 "", by decide, h.2.1 "" "a" (by decide)⟩

end Siso.Scandeps

namespace Siso.BuildCache

theorem foldl_write (ps : List (List Nat)) (acc : List Nat) :
    ps.foldl (fun h fname => h ++ fname ++ unitSeparator) acc
      = acc ++ joinSep ps := by
  induction ps generalizing acc with
  | nil => simp [joinSep]
  | cons f r ih =>
    simp only [List.foldl_cons, ih, joinSep, List.map_cons, List.flatten_cons]
    simp [unitSeparator, List.append_assoc]

theorem calculateEdgeHash_eq_sha256_edgeMessage (inputs outputs : List (List Nat)) :
    calculateEdgeHash inputs outputs = sha256 (edgeMessage inputs outputs) := by
  unfold calculateEdgeHash edgeMessage
  simp only [foldl_write]
  simp [unitSeparator, List.append_assoc]

theorem sepByte_split {x y r s : List Nat} (hx : 31 ∉ x) (hy : 31 ∉ y)
    (h : x ++ 31 :: r = y ++ 31 :: s) : x = y ∧ r = s := by
  induction x generalizing y with
  | nil =>
    cases y with
    | nil => simpa using h
    | cons b y' =>
      simp only [List.nil_append, List.cons_append, List.cons.injEq] at h
      exact absurd (h.1 ▸ List.mem_cons_self b y') (h.1 ▸ hy)
  | cons a x' ih =>
    cases y with
    | nil =>
      simp only [List.cons_append, List.nil_append, List.cons.injEq] at h
      exact absurd (h.1 ▸ List.mem_cons_self a x') (h.1 ▸ hx)
    | cons b y' =>
      simp only [List.cons_append, List.cons.injEq] at h
      have hx' : 31 ∉ x' := fun hm => hx (List.mem_cons_of_mem a hm)
      have hy' : 31 ∉ y' := fun hm => hy (List.mem_cons_of_mem b hm)
      obtain ⟨h1, h2⟩ := ih hx' hy' h.2
      exact ⟨by rw [h.1, h1], h2⟩

theorem joinSep_split (i : List (List Nat)) :
    ∀ i' (t t' : List Nat), (∀ f ∈ i, 31 ∉ f ∧ f ≠ []) →
    (∀ f ∈ i', 31 ∉ f ∧ f ≠ []) →
    joinSep i ++ 31 :: t = joinSep i' ++ 31 :: t' → i = i' ∧ t = t' := by
  induction i with
  | nil =>
    intro i' t t' _ hi' h
    cases i' with
    | nil => simpa [joinSep] using h
    | cons f' r' =>
      obtain ⟨hf'sep, hf'ne⟩ := hi' f' (List.mem_cons_self f' r')
      cases f' with
      | nil => exact absurd rfl hf'ne
      | cons b f'' =>
        simp only [joinSep, List.map_nil, List.flatten_nil, List.nil_append,
          List.map_cons, List.flatten_cons, List.cons_append,
          List.append_assoc, List.cons.injEq] at h
        exact absurd (h.1 ▸ List.mem_cons_self b f'') (h.1 ▸ hf'sep)
  | cons f r ih =>
    intro i' t t' hi hi' h
    cases i' with
    | nil =>
      obtain ⟨hfsep, hfne⟩ := hi f (List.mem_cons_self f r)
      cases f with
      | nil => exact absurd rfl hfne
      | cons b f'' =>
        simp only [joinSep, List.map_nil, List.flatten_nil, List.nil_append,
          List.map_cons, List.flatten_cons, List.cons_append,
          List.append_assoc, List.cons.injEq] at h
        exact absurd (h.1 ▸ List.mem_cons_self b f'') (h.1 ▸ hfsep)
    | cons f' r' =>
      obtain ⟨hfsep, _⟩ := hi f (List.mem_cons_self f r)
      obtain ⟨hf'sep, _⟩ := hi' f' (List.mem_cons_self f' r')
      have h' : f ++ 31 :: (joinSep r ++ 31 :: t)
          = f' ++ 31 :: (joinSep r' ++ 31 :: t') := by
        simpa [joinSep, List.append_assoc] using h
      obtain ⟨hf, hrest⟩ := sepByte_split hfsep hf'sep h'
      have hir : ∀ g ∈ r, 31 ∉ g ∧ g ≠ [] :=
        fun g hg => hi g (List.mem_cons_of_mem f hg)
      have hir' : ∀ g ∈ r', 31 ∉ g ∧ g ≠ [] :=
        fun g hg => hi' g (List.mem_cons_of_mem f' hg)
      obtain ⟨hr, ht⟩ := ih r' t t' hir hir' hrest
      exact ⟨by rw [hf, hr], ht⟩

theorem joinSep_inj (o : List (List Nat)) :
    ∀ o', (∀ f ∈ o, 31 ∉ f ∧ f ≠ []) → (∀ f ∈ o', 31 ∉ f ∧ f ≠ []) →
    joinSep o = joinSep o' → o = o' := by
  induction o with
  | nil =>
    intro o' _ ho' h
    cases o' with
    | nil => rfl
    | cons f' r' =>
      have hne : joinSep (f' :: r') ≠ [] := by
        cases f' <;> simp [joinSep]
      exact absurd h.symm hne
  | cons f r ih =>
    intro o' ho ho' h
    cases o' with
    | nil =>
      have hne : joinSep (f :: r) ≠ [] := by
        cases f <;> simp [joinSep]
      exact absurd h hne
    | cons f' r' =>
      obtain ⟨hfsep, _⟩ := ho f (List.mem_cons_self f r)
      obtain ⟨hf'sep, _⟩ := ho' f' (List.mem_cons_self f' r')
      have h' : f ++ 31 :: joinSep r = f' ++ 31 :: joinSep r' := by
        simpa [joinSep, List.append_assoc] using h
      obtain ⟨hf, hrest⟩ := sepByte_split hfsep hf'sep h'
      have hor : ∀ g ∈ r, 31 ∉ g ∧ g ≠ [] :=
        fun g hg => ho g (List.mem_cons_of_mem f hg)
      have hor' : ∀ g ∈ r', 31 ∉ g ∧ g ≠ [] :=
        fun g hg => ho' g (List.mem_cons_of_mem f' hg)
      rw [hf, ih r' hor hor' hrest]

/-- C8 counterexample: the inputs are hashed in the given order, not
sorted, so a permutation of the inputs changes the edge hash. -/
theorem C8_counterexample :
    ([[97], [98]] : List (List Nat)).Perm [[98], [97]] ∧
    calculateEdgeHash [[97], [98]] [] ≠ calculateEdgeHash [[98], [97]] [] := by
  constructor
  · exact List.Perm.swap _ _ _
  · decide

/-- C8 amended: calculateEdgeHash is SHA-256 of the inputs and outputs in
their given order, each path followed by a unit separator with an extra
separator between the lists; it is deterministic, and for separator-free
nonempty paths the hashed message determines the ordered lists exactly. -/
theorem C8_amended (inputs outputs inputs' outputs' : List (List Nat))
    (hi : ∀ f ∈ inputs, 31 ∉ f ∧ f ≠ [])
    (ho : ∀ f ∈ outputs, 31 ∉ f ∧ f ≠ [])
    (hi' : ∀ f ∈ inputs', 31 ∉ f ∧ f ≠ [])
    (ho' : ∀ f ∈ outputs', 31 ∉ f ∧ f ≠ []) :
    calculateEdgeHash inputs outputs = sha256 (edgeMessage inputs outputs) ∧
    (edgeMessage inputs outputs = edgeMessage inputs' outputs' ↔
      (inputs = inputs' ∧ outputs = outputs')) := by
  refine ⟨calculateEdgeHash_eq_sha256_edgeMessage inputs outputs, ?_, ?_⟩
  · intro h
    have h' : joinSep inputs ++ 31 :: joinSep outputs
        = joinSep inputs' ++ 31 :: joinSep outputs' := by
      simpa [edgeMessage] using h
    obtain ⟨h1, h2⟩ := joinSep_split inputs inputs' _ _ hi hi' h'
    exact ⟨h1, joinSep_inj outputs outputs' ho ho' h2⟩
  · rintro ⟨h1, h2⟩
    rw [h1, h2]

/-- Witness for C8 (amended) at concrete path lists. -/
theorem C8_amended_witness :
    ((∀ f ∈ ([[97]] : List (List Nat)), 31 ∉ f ∧ f ≠ []) ∧
      (∀ f ∈ ([] : List (List Nat)), 31 ∉ f ∧ f ≠ []) ∧
      (∀ f ∈ ([[98]] : List (List Nat)), 31 ∉ f ∧ f ≠ []) ∧
      (∀ f ∈ ([[99]] : List (List Nat)), 31 ∉ f ∧ f ≠ [])) ∧
    calculateEdgeHash [[97]] [] = sha256 (edgeMessage [[97]] []) ∧
    (edgeMessage [[97]] [] = edgeMessage [[98]] [[99]] ↔
      (([[97]] : List (List Nat)) = [[98]] ∧
        ([] : List (List Nat)) = [[99]])) := by
  refine ⟨⟨?_, ?_, ?_, ?_⟩, ?_⟩
  · decide
  · decide
  · decide
  · decide
  · exact C8_amended [[97]] [] [[98]] [[99]]
      (by decide) (by decide) (by decide) (by decide)

end Siso.BuildCache

namespace Siso.HashFS

theorem chainName_shift (fsys : FSModel) (name : String) (k : Nat) :
    chainName fsys name (k + 1) = chainName fsys (chainStep fsys name) k := by
  induction k with
  | zero => rfl
  | succ k ih =>
    show chainStep fsys (chainName fsys name (k + 1))
      = chainStep fsys (chainName fsys (chainStep fsys name) k)
    rw [ih]

theorem statChainName_shift (fsys : FSModel) (name : String) (k : Nat) :
    statChainName fsys name (k + 1) = statChainName fsys (statStep fsys name) k := by
  induction k with
  | zero => rfl
  | succ k ih =>
    show statStep fsys (statChainName fsys name (k + 1))
      = statStep fsys (statChainName fsys (statStep fsys name) k)
    rw [ih]

theorem readFileGo_ok (fsys : FSModel) (k : Nat) :
    ∀ fuel name buf, k < fuel →
    (∀ j, j < k → isSymlink fsys (chainName fsys name j) = true) →
    fsys.readFile (chainName fsys name k) = .ok buf →
    ReadFileGo fsys fuel name = .ok buf := by
  induction k with
  | zero =>
    intro fuel name buf hf _ hok
    match fuel, hf with
    | fuel + 1, _ =>
      unfold ReadFileGo
      rw [show chainName fsys name 0 = name from rfl] at hok
      rw [hok]
  | succ k ih =>
    intro fuel name buf hf hsym hok
    match fuel, hf with
    | fuel + 1, hf =>
      have h0 := hsym 0 (Nat.succ_pos k)
      unfold isSymlink at h0
      unfold ReadFileGo
      rw [show chainName fsys name 0 = name from rfl] at h0
      match hr : fsys.readFile name with
      | .ok _ => rw [hr] at h0; cases h0
      | .error (.other _) => rw [hr] at h0; cases h0
      | .error (.symlinkError p t) =>
        have hstep : chainStep fsys name = fsys.resolve p t := by
          unfold chainStep; rw [hr]
        refine ih fuel (fsys.resolve p t) buf (Nat.lt_of_succ_lt_succ hf) ?_ ?_
        · intro j hj
          have := hsym (j + 1) (Nat.succ_lt_succ hj)
          rw [chainName_shift, hstep] at this
          exact this
        · rw [← hstep, ← chainName_shift]
          exact hok

theorem readFileGo_eloop (fsys : FSModel) :
    ∀ fuel name,
    (∀ j, j < fuel → isSymlink fsys (chainName fsys name j) = true) →
    ReadFileGo fsys fuel name = .error .eloop := by
  intro fuel
  induction fuel with
  | zero => intro name _; rfl
  | succ fuel ih =>
    intro name hsym
    have h0 := hsym 0 (Nat.succ_pos fuel)
    unfold isSymlink at h0
    rw [show chainName fsys name 0 = name from rfl] at h0
    unfold ReadFileGo
    match hr : fsys.readFile name with
    | .ok _ => rw [hr] at h0; cases h0
    | .error (.other _) => rw [hr] at h0; cases h0
    | .error (.symlinkError p t) =>
      have hstep : chainStep fsys name = fsys.resolve p t := by
        unfold chainStep; rw [hr]
      refine ih (fsys.resolve p t) ?_
      intro j hj
      have := hsym (j + 1) (Nat.succ_lt_succ hj)
      rw [chainName_shift, hstep] at this
      exact this

theorem statFiAt_shift (fsys : FSModel) (name : String) (k : Nat) :
    statFiAt fsys name (k + 1) = statFiAt fsys (statStep fsys name) k := by
  unfold statFiAt
  rw [statChainName_shift]

theorem statGo_ok (fsys : FSModel) (k : Nat) :
    ∀ fuel name fis fi, k < fuel →
    (∀ j, j < k → statIsSymlink fsys (statChainName fsys name j) = true) →
    fsys.stat (statChainName fsys name k) = .ok fi → fi.target = "" →
    StatGo fsys fuel name fis
      = .ok (fi, fis ++ (List.range k).map (statFiAt fsys name)) := by
  induction k with
  | zero =>
    intro fuel name fis fi hf _ hok htgt
    match fuel, hf with
    | fuel + 1, _ =>
      unfold StatGo
      rw [show statChainName fsys name 0 = name from rfl] at hok
      rw [hok]
      simp [htgt]
  | succ k ih =>
    intro fuel name fis fi hf hsym hok htgt
    match fuel, hf with
    | fuel + 1, hf =>
      have h0 := hsym 0 (Nat.succ_pos k)
      unfold statIsSymlink at h0
      rw [show statChainName fsys name 0 = name from rfl] at h0
      unfold StatGo
      match hr : fsys.stat name with
      | .error _ => rw [hr] at h0; cases h0
      | .ok fi0 =>
        rw [hr] at h0
        have htgt0 : ¬ fi0.target = "" := by
          simpa using h0
        dsimp only
        rw [if_neg htgt0]
        have hstep : statStep fsys name = fsys.resolve fi0.path fi0.target := by
          unfold statStep
          rw [hr]
          dsimp only
          rw [if_neg htgt0]
        have hfi0 : statFiAt fsys name 0 = fi0 := by
          unfold statFiAt
          rw [show statChainName fsys name 0 = name from rfl, hr]
        have hsym' : ∀ j, j < k →
            statIsSymlink fsys
              (statChainName fsys (fsys.resolve fi0.path fi0.target) j) = true := by
          intro j hj
          have hs := hsym (j + 1) (Nat.succ_lt_succ hj)
          rw [statChainName_shift, hstep] at hs
          exact hs
        have hok' :
            fsys.stat (statChainName fsys (fsys.resolve fi0.path fi0.target) k)
              = .ok fi := by
          rw [← hstep, ← statChainName_shift]
          exact hok
        have hrec := ih fuel (fsys.resolve fi0.path fi0.target) (fis ++ [fi0]) fi
          (Nat.lt_of_succ_lt_succ hf) hsym' hok' htgt
        rw [hrec]
        have hmap : (List.range (k + 1)).map (statFiAt fsys name)
            = fi0 :: (List.range k).map
                (statFiAt fsys (fsys.resolve fi0.path fi0.target)) := by
          rw [List.range_succ_eq_map, List.map_cons, hfi0, List.map_map]
          congr 1
          refine List.map_congr_left ?_
          intro j _
          show statFiAt fsys name (j + 1) = _
          rw [statFiAt_shift, hstep]
        rw [hmap]
        simp [List.append_assoc]

theorem statGo_eloop (fsys : FSModel) :
    ∀ fuel name fis,
    (∀ j, j < fuel → statIsSymlink fsys (statChainName fsys name j) = true) →
    StatGo fsys fuel name fis = .error .eloop := by
  intro fuel
  induction fuel with
  | zero => intro name fis _; rfl
  | succ fuel ih =>
    intro name fis hsym
    have h0 := hsym 0 (Nat.succ_pos fuel)
    unfold statIsSymlink at h0
    rw [show statChainName fsys name 0 = name from rfl] at h0
    unfold StatGo
    match hr : fsys.stat name with
    | .error _ => rw [hr] at h0; cases h0
    | .ok fi0 =>
      rw [hr] at h0
      have htgt0 : ¬ fi0.target = "" := by
        simpa using h0
      dsimp only
      rw [if_neg htgt0]
      have hstep : statStep fsys name = fsys.resolve fi0.path fi0.target := by
        unfold statStep
        rw [hr]
        dsimp only
        rw [if_neg htgt0]
      refine ih (fsys.resolve fi0.path fi0.target) (fis ++ [fi0]) ?_
      intro j hj
      have hs := hsym (j + 1) (Nat.succ_lt_succ hj)
      rw [statChainName_shift, hstep] at hs
      exact hs

/-- C7: `FileSystem.ReadFile` and `FileSystem.Stat` follow at most
`maxSymlinks = 40` symlink indirections: if the resolution chain reaches a
non-symlink outcome after k < 40 symlinks, the loop returns it (`ReadFile`
the bytes, `Stat` the file info with the k visited symlink infos); and on
any name whose first 40 resolution steps all encounter symlinks — in
particular whenever the resolution needs more than 40 indirections — they
return the `ELOOP` error instead of bytes (both functions are total, so
they cannot loop forever). -/
theorem C7_symlink_bound (fsys : FSModel) (name : String) (k : Nat)
    (buf : List Nat) (fi : StatInfo) :
    (k < maxSymlinks →
      (∀ j, j < k → isSymlink fsys (chainName fsys name j) = true) →
      fsys.readFile (chainName fsys name k) = .ok buf →
      ReadFile fsys name = .ok buf) ∧
    ((∀ j, j < maxSymlinks → isSymlink fsys (chainName fsys name j) = true) →
      ReadFile fsys name = .error .eloop) ∧
    (k < maxSymlinks →
      (∀ j, j < k → statIsSymlink fsys (statChainName fsys name j) = true) →
      fsys.stat (statChainName fsys name k) = .ok fi → fi.target = "" →
      Stat fsys name = .ok (fi, (List.range k).map (statFiAt fsys name))) ∧
    ((∀ j, j < maxSymlinks →
        statIsSymlink fsys (statChainName fsys name j) = true) →
      Stat fsys name = .error .eloop) := by
  refine ⟨?_, ?_, ?_, ?_⟩
  · intro hk hsym hok
    exact readFileGo_ok fsys k maxSymlinks name buf hk hsym hok
  · intro hsym
    exact readFileGo_eloop fsys maxSymlinks name hsym
  · intro hk hsym hok htgt
    have h := statGo_ok fsys k maxSymlinks name [] fi hk hsym hok htgt
    rw [Stat, h]
    simp
  · intro hsym
    exact statGo_eloop fsys maxSymlinks name [] hsym

/-- Witness for C7 on the concrete filesystem `c7fs`: the chain
`a → b → c` resolves through two symlinks for both ReadFile and Stat, and
the self-loop `x → x` produces ELOOP for both. -/
theorem C7_symlink_bound_witness :
    (2 < maxSymlinks ∧
      (∀ j, j < 2 → isSymlink c7fs (chainName c7fs "a" j) = true) ∧
      c7fs.readFile (chainName c7fs "a" 2) = .ok [1, 2] ∧
      (∀ j, j < maxSymlinks → isSymlink c7fs (chainName c7fs "x" j) = true) ∧
      (∀ j, j < 2 → statIsSymlink c7fs (statChainName c7fs "a" j) = true) ∧
      c7fs.stat (statChainName c7fs "a" 2) = .ok ⟨"", "c"⟩ ∧
      (∀ j, j < maxSymlinks →
        statIsSymlink c7fs (statChainName c7fs "x" j) = true)) ∧
    ReadFile c7fs "a" = .ok [1, 2] ∧
    ReadFile c7fs "x" = .error .eloop ∧
    Stat c7fs "a" = .ok (⟨"", "c"⟩, [⟨"b", "a"⟩, ⟨"c", "b"⟩]) ∧
    Stat c7fs "x" = .error .eloop := by
  refine ⟨⟨by decide, by decide, rfl, by decide, by decide, rfl,
    by decide⟩, ?_, ?_, ?_, ?_⟩
  · exact (C7_symlink_bound c7fs "a" 2 [1, 2] ⟨"", ""⟩).1
      (by decide) (by decide) rfl
  · exact (C7_symlink_bound c7fs "x" 0 [] ⟨"", ""⟩).2.1 (by decide)
  · have h := (C7_symlink_bound c7fs "a" 2 [] ⟨"", "c"⟩).2.2.1
      (by decide) (by decide) rfl (by decide)
    rw [h]
    rfl
  · exact (C7_symlink_bound c7fs "x" 0 [] ⟨"", ""⟩).2.2.2 (by decide)

end Siso.HashFS
